import Mathlib

/-!
Verification of the nlp module of pdapt (`pdapt_lib/machine_learning/nlp.py`).

The Python functions are shallowly embedded as executable Lean definitions:

* Python lists become `List`, strings become `String` (in Lean 4.14 a
  `String` wraps a `List Char`, so string processing is done on `.data`
  where convenient).
* Python slice and index expressions, which clip or wrap negative
  indices, are modelled by `pyBound`/`pySlice`/`pyIdx` below, faithfully
  reproducing CPython semantics (a negative index is shifted by the
  length; a slice bound is then clamped into range; an index that is
  still out of range is an error, modelled as `none`).
* `range(a, b, step)` with a positive step is `pyRangeStep`.
* Python dicts (token sets) become association lists in insertion order,
  with `dictGet`/`dictSet` reproducing dict lookup and assignment.
* The regular-expression rewriting used by the normalization pipeline is
  embedded by explicit scanners.  Each `re.sub` pass scans left to
  right, replaces the leftmost match, and continues scanning after the
  consumed text; the scanners below do the same, using a fuel argument
  (always instantiated with the length of the scanned list, which is an
  upper bound on the number of steps, since every step consumes at least
  one character) so that all definitions are structurally recursive and
  kernel-reducible.
-/

/-! ## Python slice / index primitives -/

/-- Normalise a Python slice bound for a sequence of length `n`:
a negative bound is shifted by `n` and clamped below at `0`; a
non-negative bound is clamped above at `n`. -/
def pyBound (n : Nat) (a : Int) : Nat :=
  if a < 0 then (if a + n < 0 then 0 else (a + n).toNat) else min a.toNat n

/-- Python slice `l[a:b]` (step 1). -/
def pySlice {α : Type} (l : List α) (a b : Int) : List α :=
  (l.take (pyBound l.length b)).drop (pyBound l.length a)

/-- Python subscript `l[i]`: negative indices are shifted by the length;
an out-of-range access is an `IndexError`, modelled as `none`. -/
def pyIdx {α : Type} (l : List α) (i : Int) : Option α :=
  if i < 0 then
    (if 0 ≤ i + l.length then l[(i + l.length).toNat]? else none)
  else l[i.toNat]?

/-- Python `range(a, b, step)` for a positive step. -/
def pyRangeStep (a b step : Nat) : List Nat :=
  (List.range ((b - a + step - 1) / step)).map (fun m => a + m * step)

/-- Python `s.split(" ")`: cut at every single space, keeping empty
pieces (so `"".split(" ") == [""]`). -/
def splitSpacesAux (cur : List Char) : List Char → List String
  | [] => [String.mk cur.reverse]
  | c :: cs =>
    if c = ' ' then String.mk cur.reverse :: splitSpacesAux [] cs
    else splitSpacesAux (c :: cur) cs

/-- Word sequence of a text, as produced by Python `s.split(" ")`. -/
def wordsOf (s : String) : List String := splitSpacesAux [] s.data

/-- Python `" ".join(ws)`. -/
def joinSpace : List String → String
  | [] => ""
  | [w] => w
  | w :: ws => w ++ " " ++ joinSpace ws

/-! ## Co-occurrence counting (`get_cooccurance_count`,
`build_cooccurance_matrix`) -/

/-- Inner sum of `get_cooccurance_count` for one sentence:
`sum((s[i-window:i]+s[i+1:i+1+window]).count(neighbor) for i,w in
enumerate(s) if w == target)`. -/
def cooccurSentence (window : Nat) (target neighbor : String) (s : List String) : Nat :=
  ((List.range s.length).map (fun i =>
    if s.getD i "" = target then
      ((pySlice s ((i : Int) - window) i ++
        pySlice s ((i : Int) + 1) ((i : Int) + 1 + window)).count neighbor)
    else 0)).sum

/-- `get_cooccurance_count(window, target, neighbor, sentences)` from
`nlp.py`. -/
def get_cooccurance_count (window : Nat) (target neighbor : String)
    (sentences : List (List String)) : Nat :=
  (sentences.map (cooccurSentence window target neighbor)).sum

/-- `np.zeros((len(tokens), len(tokens)))` as evaluated in `nlp.py`:
the module's imports are the `maths` helpers, `re`, `collections`,
`functools` and `math` only — `numpy` is never imported — so the
global name `np` is unbound and the attribute lookup raises
`NameError`.  The unbound-name lookup is modelled as `none`. -/
def npZeros (_shape : Nat × Nat) : Option (List (List Nat)) := none

/-- `build_cooccurance_matrix(window, tokens, sentences)` from
`nlp.py`: its first statement `m = np.zeros((len(tokens),len(tokens)))`
raises `NameError` (see `npZeros`), so a call never reaches the
counting loops; had the allocation succeeded, the loops would
overwrite every entry `m[i][j]` with
`get_cooccurance_count(window, tokens[i], tokens[j], sentences)`
(the numpy float matrix modelled as a list of rows of counts). -/
def build_cooccurance_matrix (window : Nat) (tokens : List String)
    (sentences : List (List String)) : Option (List (List Nat)) :=
  match npZeros (tokens.length, tokens.length) with
  | none => none
  | some _ =>
    some (tokens.map (fun ti =>
      tokens.map (fun tj => get_cooccurance_count window ti tj sentences)))

/-- Modelled from the spec: the number of occurrences of `neighbor`
within the half-open ranges `[i-window, i)` and `(i, i+window]` around
position `i`, truncated (clipped) at the sentence boundaries. -/
def clippedWindowCount (window : Nat) (neighbor : String) (s : List String) (i : Nat) : Nat :=
  ((s.drop (i - window)).take (min window i)).count neighbor +
    ((s.drop (i + 1)).take window).count neighbor

/-- Modelled from the spec: the co-occurrence count with both window
ranges clipped at the sentence boundaries, summed over every target
occurrence of every sentence. -/
def cooccurance_count_spec (window : Nat) (target neighbor : String)
    (sentences : List (List String)) : Nat :=
  (sentences.map (fun s =>
    ((List.range s.length).map (fun i =>
      if s.getD i "" = target then clippedWindowCount window neighbor s i else 0)).sum)).sum

/-! ## n-grams and skip-grams -/

/-- `n_gram(n, s)` from `nlp.py`:
`words[i:i+n]` joined by spaces, for `i in range(len(words)-(n-1))`. -/
def n_gram (n : Nat) (s : String) : List String :=
  let words := wordsOf s
  (List.range (words.length - (n - 1))).map (fun i => joinSpace ((words.drop i).take n))

/-- `skip_gram(k, n, s)` from `nlp.py`:
`[words[i]] + [words[i+k+j] for j in range(1, n+k, k+1)]` joined by
spaces, for `i in range(len(words)-((1+k)*(n-1)))`. -/
def skip_gram (k n : Nat) (s : String) : List String :=
  let words := wordsOf s
  ((List.range (words.length - (1 + k) * (n - 1))).map (fun i =>
    words.getD i "" :: (pyRangeStep 1 (n + k) (k + 1)).map (fun j => words.getD (i + k + j) ""))).map
    joinSpace

/-! ## Token sets (`merge_tokens`)

A Python dict is modelled as an association list in insertion order;
`dictGet` is dict lookup, `dictSet` is dict assignment (update the
existing entry in place, otherwise append at the end). -/

/-- Dict lookup `d[k]` (`none` when the key is absent). -/
def dictGet (d : List (String × Nat)) (k : String) : Option Nat :=
  (d.find? (fun p => p.1 == k)).map (fun p => p.2)

/-- Dict assignment `d[k] = v`: overwrite the entry holding `k`, keeping
its position, or append a new entry at the end. -/
def dictSet : List (String × Nat) → String → Nat → List (String × Nat)
  | [], k, v => [(k, v)]
  | p :: rest, k, v => if p.1 == k then (p.1, v) :: rest else p :: dictSet rest k v

/-- `merge_tokens(a, b)` from `nlp.py`: two passes over the items of `a`
and `b`, writing `b[k] + v` (resp. `a[k] + v`) for shared keys into a
fresh dict. -/
def merge_tokens (a b : List (String × Nat)) : List (String × Nat) :=
  let d1 := a.foldl (fun acc kv =>
    dictSet acc kv.1 (match dictGet b kv.1 with | some bv => bv + kv.2 | none => kv.2)) []
  b.foldl (fun acc kv =>
    dictSet acc kv.1 (match dictGet a kv.1 with | some av => av + kv.2 | none => kv.2)) d1

/-- The keys of a token set, in insertion order. -/
def dictKeys (d : List (String × Nat)) : List String := d.map (fun p => p.1)

/-- The dict invariant: keys are unique (Python dicts cannot hold
duplicate keys). -/
def NodupKeys (d : List (String × Nat)) : Prop := (dictKeys d).Nodup

/-- `sum(d.values())`. -/
def sumVals (d : List (String × Nat)) : Nat := (d.map (fun p => p.2)).sum

/-! ## `tfidf` -/

/-- `tfidf(term, doc, docs)` from `nlp.py`.  Python float arithmetic is
modelled exactly over `ℚ`; since `math.log` has no rational value, the
result is returned as the pair (term frequency, argument of the
logarithm), so the float the Python code returns is
`fst * Real.log snd`.  A `ZeroDivisionError` (empty `doc`, or `term` in
no document of `docs`) is modelled as `none`; the order of the two
checks follows the order of evaluation in the Python code. -/
def tfidf (term : String) (doc : List String) (docs : List (List String)) : Option (ℚ × ℚ) :=
  if doc.length = 0 then none
  else
    let containing := (docs.filter (fun d => d.contains term)).length
    if containing = 0 then none
    else some ((doc.count term : ℚ) / (doc.length : ℚ),
               1 + (docs.length : ℚ) / (containing : ℚ))

/-! ## `bigram_predict` -/

/-- Last word of a text (`s.split(" ")[-1]`; the split of any string is
non-empty, so the default is never used). -/
def lastWord (s : String) : String := (wordsOf s).getLastD ""

/-- Second-to-last word of a key (`ngram[-2]` for a key of at least two
words). -/
def secondLastWord (w : String) : String :=
  (wordsOf w).getD ((wordsOf w).length - 2) ""

/-- One insertion step of a stable sort by count, descending: `x` moves
past exactly the entries with a strictly larger count, so entries with
equal counts keep their relative order. -/
def sortTokensInsert (x : String × Nat) : List (String × Nat) → List (String × Nat)
  | [] => [x]
  | y :: ys => if x.2 < y.2 then y :: sortTokensInsert x ys else x :: y :: ys

/-- `sorted(t.items(), key=lambda x: -x[1])`: a stable sort of the
entries by count, descending. -/
def sortTokens (t : List (String × Nat)) : List (String × Nat) :=
  t.foldr sortTokensInsert []

/-- The scanning loop of `bigram_predict`: walk the sorted entries,
return the last word of the first key whose second-to-last word is
`start`, the empty string when no key matches, and `none` (an
`IndexError` on `ngram[-2]`) when a one-word key is reached first. -/
def bigramLoop (start : String) : List (String × Nat) → Option String
  | [] => some ""
  | kv :: rest =>
    match pyIdx (wordsOf kv.1) (-2) with
    | none => none
    | some w2 => if start = w2 then pyIdx (wordsOf kv.1) (-1) else bigramLoop start rest

/-- `bigram_predict(t, s)` from `nlp.py` (`none` models an
`IndexError`). -/
def bigram_predict (t : List (String × Nat)) (s : String) : Option String :=
  match pyIdx (wordsOf s) (-1) with
  | none => none
  | some start => bigramLoop start (sortTokens t)

/-- The scan described by the spec: the last word of the first entry of
the stably-sorted table whose second-to-last word equals the last word
of the prefix, or `""` when no entry matches. -/
def bigramScanSpec (t : List (String × Nat)) (s : String) : String :=
  match (sortTokens t).find? (fun kv => secondLastWord kv.1 == lastWord s) with
  | some kv => lastWord kv.1
  | none => ""

/-! ## Character classes (ASCII, as used by the `re` patterns) -/

def isLowerAlpha (c : Char) : Bool := 'a' ≤ c && c ≤ 'z'

def isUpperAlpha (c : Char) : Bool := 'A' ≤ c && c ≤ 'Z'

def isAlphaC (c : Char) : Bool := isLowerAlpha c || isUpperAlpha c

def isDigitC (c : Char) : Bool := '0' ≤ c && c ≤ '9'

def isAlnumC (c : Char) : Bool := isAlphaC c || isDigitC c

/-- The regex class `\s`. -/
def isSpaceC (c : Char) : Bool :=
  c == ' ' || c == '\t' || c == '\n' || c == '\r' || c == '\x0b' || c == '\x0c'

/-- The regex class `\w`. -/
def isWordC (c : Char) : Bool := isAlnumC c || c == '_'

/-- The apostrophe character (codepoint 39). -/
def apos : Char := Char.ofNat 39

/-! ## `stem` -/

/-- The alternative `[A-Za-z]ing` of the exception pattern, tried by
`re.match`, i.e. anchored at the start of the word only. -/
def genericIng1 : List Char → Bool
  | c :: 'i' :: 'n' :: 'g' :: _ => isAlphaC c
  | _ => false

/-- The alternative `[A-Za-z].ing` of the exception pattern (`.` is any
character except a newline), anchored at the start of the word. -/
def genericIng2 : List Char → Bool
  | c0 :: c1 :: 'i' :: 'n' :: 'g' :: _ => isAlphaC c0 && !(c1 == '\n')
  | _ => false

/-- An alternative of the shape `[Xx]tail` (two allowed first letters
followed by a literal), anchored at the start of the word. -/
def classLit (a b : Char) (tail : String) (l : List Char) : Bool :=
  match l with
  | c :: rest => (c == a || c == b) && tail.data.isPrefixOf rest
  | [] => false

/-- `exceptions_ing.match(word)` of `stem`: the alternation of the
verbose pattern, each alternative anchored at the start of the word. -/
def exceptions_ing (w : String) : Bool :=
  genericIng1 w.data || genericIng2 w.data ||
  classLit 'S' 's' "omething" w.data || classLit 'N' 'n' "othing" w.data ||
  classLit 'D' 'd' "uring" w.data || classLit 'E' 'e' "vening" w.data ||
  classLit 'M' 'm' "orning" w.data ||
  classLit 'S' 's' "tring" w.data || classLit 'C' 'c' "eiling" w.data ||
  classLit 'S' 's' "terling" w.data || classLit 'C' 'c' "ling" w.data ||
  classLit 'G' 'g' "osling" w.data ||
  classLit 'I' 'i' "cing" w.data || classLit 'S' 's' "hilling" w.data ||
  classLit 'S' 's' "ting" w.data || classLit 'V' 'v' "iking" w.data ||
  classLit 'F' 'f' "iling" w.data || classLit 'C' 'c' "arling" w.data

/-- The suffix alternation of the stemming regex
`^(.*?)(ies|es|s|ed|ing|ative|ive|ious|ously|ally|ly|ment)?$`. -/
def stemSuffixes : List String :=
  ["ies", "es", "s", "ed", "ing", "ative", "ive", "ious", "ously", "ally", "ly", "ment"]

/-- The non-greedy prefix capture: the shortest prefix whose remainder
is one of the suffixes (or, failing that, the whole word, the optional
suffix group matching empty). -/
def stemScan (pre rest : List Char) : List Char :=
  if stemSuffixes.contains (String.mk rest) then pre
  else
    match rest with
    | [] => pre
    | c :: cs => stemScan (pre ++ [c]) cs

/-- `stem(word)` from `nlp.py`. -/
def stem (word : String) : String :=
  if exceptions_ing word then word else String.mk (stemScan [] word.data)

/-! ## The normalization pipeline

Each `re.sub` pass of `expand`, `standardize_abbreviations`,
`remove_numbers`, `lowercase`, `uppercase_i` and `remove_punctuation`
is embedded as a left-to-right scanner; the fuel argument is always
instantiated with the length of the scanned list. -/

/-- Try to match a sequence of character predicates at the head of the
list, returning the remainder after the match. -/
def patMatch : List (Char → Bool) → List Char → Option (List Char)
  | [], rest => some rest
  | _ :: _, [] => none
  | p :: ps, c :: cs => if p c then patMatch ps cs else none

/-- `re.sub(pat, repl, s)` for a fixed-width pattern of character
predicates and a literal replacement: leftmost, non-overlapping
matches, scanning the rest of the string after each replacement. -/
def subScan (pat : List (Char → Bool)) (repl : List Char) : Nat → List Char → List Char
  | 0, l => l
  | _ + 1, [] => []
  | fuel + 1, c :: cs =>
    match patMatch pat (c :: cs) with
    | some rest => repl ++ subScan pat repl fuel rest
    | none => c :: subScan pat repl fuel cs

/-- Literal pattern: one equality predicate per character. -/
def mkPat (s : String) : List (Char → Bool) := s.data.map (fun pc => fun c => pc == c)

/-- The contraction table of `expand`, in source order (pattern,
replacement); the first pattern is `[Ii]t's`, all others are
literals. -/
def expandRules : List (List (Char → Bool) × List Char) :=
  [((fun c => c == 'I' || c == 'i') :: mkPat "t's", "it is".data),
   (mkPat "'ve", " have".data),
   (mkPat "n't", " not".data),
   (mkPat "'ll", " will".data),
   (mkPat "'m", " am".data),
   (mkPat "'re", " are".data),
   (mkPat "'tis", "it is".data),
   (mkPat "'twas", "it was".data),
   (mkPat "let's", "let us".data),
   (mkPat "shan't", "shall not".data),
   (mkPat "G'day", "Good day".data),
   (mkPat "who's", "who is".data),
   (mkPat "where's", "where is".data),
   (mkPat "what's", "what is".data),
   (mkPat "why's", "why is".data),
   (mkPat "that's", "that is".data),
   (mkPat "there's", "there is".data),
   (mkPat "someone's", "someone is".data),
   (mkPat "somebody's", "somebody is".data),
   (mkPat "something's", "something is".data),
   (mkPat "he's", "he is".data),
   (mkPat "o'clock", "of the clock".data),
   (mkPat "ain't", "am not".data)]

/-- `expand(s)` from `nlp.py`: the substitution passes applied in
source order. -/
def expand (l : List Char) : List Char :=
  expandRules.foldl (fun acc r => subScan r.1 r.2 acc.length acc) l

/-- `re.sub` for a pattern `(?<=P)c` with empty replacement: remove
every occurrence of the character `target` whose preceding character in
the original string satisfies `prevP` (the lookbehind inspects the
original string, so removals do not cascade). -/
def subAfter (prevP : Char → Bool) (target : Char) : Option Char → List Char → List Char
  | _, [] => []
  | prev, c :: cs =>
    if c == target && (match prev with | some p => prevP p | none => false) then
      subAfter prevP target (some c) cs
    else c :: subAfter prevP target (some c) cs

/-- `re.sub(r'[A-Z]*[a-z]*[0-9]+', lambda x: x.group().upper(), s)`:
at each position try a greedy run of uppercase letters, then lowercase
letters, then at least one digit; on a match, uppercase the matched
text and continue after it. -/
def upperizeNum : Nat → List Char → List Char
  | 0, l => l
  | _ + 1, [] => []
  | fuel + 1, c :: cs =>
    let u := (c :: cs).takeWhile isUpperAlpha
    let r1 := (c :: cs).drop u.length
    let lo := r1.takeWhile isLowerAlpha
    let r2 := r1.drop lo.length
    let d := r2.takeWhile isDigitC
    if d.isEmpty then c :: upperizeNum fuel cs
    else (u ++ lo ++ d).map Char.toUpper ++ upperizeNum fuel (r2.drop d.length)

/-- `standardize_abbreviations(s)` from `nlp.py`: remove `.` after an
uppercase letter, `-` after an uppercase letter, `-` after a lowercase
letter, then uppercase every `[A-Z]*[a-z]*[0-9]+` token run. -/
def standardize_abbreviations (l : List Char) : List Char :=
  let l1 := subAfter isUpperAlpha '.' none l
  let l2 := subAfter isUpperAlpha '-' none l1
  let l3 := subAfter isLowerAlpha '-' none l2
  upperizeNum l3.length l3

/-- One repetition `\s\d+\s` of the first `remove_numbers` pattern. -/
def oneNumRep : List Char → Option (List Char)
  | [] => none
  | c :: cs =>
    if isSpaceC c then
      let d := cs.takeWhile isDigitC
      if d.isEmpty then none
      else
        match cs.drop d.length with
        | c2 :: cs2 => if isSpaceC c2 then some cs2 else none
        | [] => none
    else none

/-- Greedy `(\s\d+\s)+`: at least one repetition, extended as far as
possible. -/
def numReps : Nat → List Char → Option (List Char)
  | 0, _ => none
  | fuel + 1, l =>
    match oneNumRep l with
    | none => none
    | some r => match numReps fuel r with
      | some r2 => some r2
      | none => some r

/-- `re.sub(r"(\s\d+\s)+", " ", s)`. -/
def subNums1 : Nat → List Char → List Char
  | 0, l => l
  | _ + 1, [] => []
  | fuel + 1, c :: cs =>
    match numReps (fuel + 1) (c :: cs) with
    | some rest => ' ' :: subNums1 fuel rest
    | none => c :: subNums1 fuel cs

/-- `re.sub(r"^\d+\s", " ", s)`: anchored at the start, so at most one
match. -/
def subNums2 (l : List Char) : List Char :=
  let d := l.takeWhile isDigitC
  if d.isEmpty then l
  else
    match l.drop d.length with
    | c :: cs => if isSpaceC c then ' ' :: cs else l
    | [] => l

/-- Match `\s[-+]*\d+\s` at the head of the list. -/
def intTokMatch : List Char → Option (List Char)
  | [] => none
  | c :: cs =>
    if isSpaceC c then
      let sgn := cs.takeWhile (fun x => x == '-' || x == '+')
      let r1 := cs.drop sgn.length
      let d := r1.takeWhile isDigitC
      if d.isEmpty then none
      else
        match r1.drop d.length with
        | c2 :: cs2 => if isSpaceC c2 then some cs2 else none
        | [] => none
    else none

/-- `re.sub(r"\s[-+]*\d+\s", " ", s)`. -/
def subNums3 : Nat → List Char → List Char
  | 0, l => l
  | _ + 1, [] => []
  | fuel + 1, c :: cs =>
    match intTokMatch (c :: cs) with
    | some rest => ' ' :: subNums3 fuel rest
    | none => c :: subNums3 fuel cs

/-- Match `\s[-+]*\d+\.\d+[\W]` at the head of the list. -/
def floatTokMatch : List Char → Option (List Char)
  | [] => none
  | c :: cs =>
    if isSpaceC c then
      let sgn := cs.takeWhile (fun x => x == '-' || x == '+')
      let r1 := cs.drop sgn.length
      let d1 := r1.takeWhile isDigitC
      if d1.isEmpty then none
      else
        match r1.drop d1.length with
        | '.' :: r2 =>
          let d2 := r2.takeWhile isDigitC
          if d2.isEmpty then none
          else
            match r2.drop d2.length with
            | c3 :: cs3 => if !isWordC c3 then some cs3 else none
            | [] => none
        | _ => none
    else none

/-- `re.sub(r"\s[-+]*\d+\.\d+[\W]", " ", s)`. -/
def subNums4 : Nat → List Char → List Char
  | 0, l => l
  | _ + 1, [] => []
  | fuel + 1, c :: cs =>
    match floatTokMatch (c :: cs) with
    | some rest => ' ' :: subNums4 fuel rest
    | none => c :: subNums4 fuel cs

/-- `remove_numbers(s)` from `nlp.py`: the four passes in source
order. -/
def remove_numbers (l : List Char) : List Char :=
  let l1 := subNums1 l.length l
  let l2 := subNums2 l1
  let l3 := subNums3 l2.length l2
  subNums4 l3.length l3

/-- `re.sub(r'[A-Z][a-z]+', lambda x: x.group().lower(), s)`: lowercase
a capital letter followed by a greedy non-empty run of lowercase
letters (lowering the run leaves it unchanged). -/
def lc1 : Nat → List Char → List Char
  | 0, l => l
  | _ + 1, [] => []
  | fuel + 1, c :: cs =>
    if isUpperAlpha c then
      match cs with
      | c2 :: _ =>
        if isLowerAlpha c2 then
          let run := cs.takeWhile isLowerAlpha
          c.toLower :: (run ++ lc1 fuel (cs.drop run.length))
        else c :: lc1 fuel cs
      | [] => c :: lc1 fuel cs
    else c :: lc1 fuel cs

/-- `re.sub(r'^[A-Z]\s', lambda x: x.group().lower(), s)`: anchored at
the start, so at most one match; lowering the whitespace leaves it
unchanged. -/
def lc2 : List Char → List Char
  | c :: c2 :: cs => if isUpperAlpha c && isSpaceC c2 then c.toLower :: c2 :: cs else c :: c2 :: cs
  | l => l

/-- `lowercase(s)` from `nlp.py`. -/
def lowercase (l : List Char) : List Char := lc2 (lc1 l.length l)

/-- `re.sub(r'^i\s+', lambda x: x.group().upper(), s)`: anchored at the
start; uppercasing the matched text turns the leading `i` into `I` and
leaves the whitespace run unchanged. -/
def up1 : List Char → List Char
  | 'i' :: c2 :: cs => if isSpaceC c2 then 'I' :: c2 :: cs else 'i' :: c2 :: cs
  | l => l

/-- `re.sub(r'\s+i\s+', lambda x: x.group().upper(), s)`: a match needs
a whitespace run, a literal `i` and a second whitespace run, which is
consumed, so scanning continues after it. -/
def up2 : Nat → List Char → List Char
  | 0, l => l
  | _ + 1, [] => []
  | fuel + 1, c :: cs =>
    if isSpaceC c then
      let r1 := (c :: cs).takeWhile isSpaceC
      match (c :: cs).drop r1.length with
      | 'i' :: rest2 =>
        let r2 := rest2.takeWhile isSpaceC
        if r2.isEmpty then c :: up2 fuel cs
        else r1 ++ 'I' :: (r2 ++ up2 fuel (rest2.drop r2.length))
      | _ => c :: up2 fuel cs
    else c :: up2 fuel cs

/-- `uppercase_i(s)` from `nlp.py`. -/
def uppercase_i (l : List Char) : List Char := up2 (up1 l).length (up1 l)

/-- `re.sub(r'[^A-Za-z0-9]+', ' ', s)`: every maximal run of
non-alphanumeric characters becomes a single space. -/
def remPunct : Nat → List Char → List Char
  | 0, l => l
  | _ + 1, [] => []
  | fuel + 1, c :: cs =>
    if isAlnumC c then c :: remPunct fuel cs
    else ' ' :: remPunct fuel ((c :: cs).drop ((c :: cs).takeWhile (fun x => !isAlnumC x)).length)

/-- `remove_punctuation(s)` from `nlp.py`. -/
def remove_punctuation (l : List Char) : List Char := remPunct l.length l

/-- The normalization pipeline as composed in `tokenize` (with both
optional stages off): expansion, abbreviation standardization, number
removal, case folding, pronoun-I re-uppercasing, punctuation
stripping. -/
def normalizeText (s : String) : String :=
  String.mk (remove_punctuation (uppercase_i (lowercase
    (remove_numbers (standardize_abbreviations (expand s.data))))))

/-- Does the list contain `pat` as a contiguous substring? -/
def containsSeq (pat : List Char) : List Char → Bool
  | [] => pat.isEmpty
  | c :: cs => pat.isPrefixOf (c :: cs) || containsSeq pat cs

/-- Is somewhere an uppercase letter immediately followed by a
lowercase letter (i.e. can `[A-Z][a-z]+` match)? -/
def hasUpperLower : List Char → Bool
  | c :: c2 :: cs => (isUpperAlpha c && isLowerAlpha c2) || hasUpperLower (c2 :: cs)
  | _ => false

/-- A lowercase letter or a space: the character set of the
already-normalized texts of the idempotence claim. -/
def lowerSpace (c : Char) : Bool := isLowerAlpha c || c == ' '

/-! ## Theorems -/

theorem getD_map_range {α : Type} (f : Nat → α) (m i : Nat) (d : α) (hi : i < m) :
    ((List.range m).map f).getD i d = f i := by
  rw [List.getD_eq_getElem?_getD, List.getElem?_map, List.getElem?_range hi]
  rfl

theorem getD_map_lt {α β : Type} (f : α → β) (l : List α) (i : Nat) (d : β) (d' : α)
    (hi : i < l.length) : (l.map f).getD i d = f (l.getD i d') := by
  rw [List.getD_eq_getElem?_getD, List.getElem?_map, List.getElem?_eq_getElem hi,
    List.getD_eq_getElem?_getD, List.getElem?_eq_getElem hi]
  rfl

theorem getD_map_ge {α β : Type} (f : α → β) (l : List α) (i : Nat) (d : β)
    (hi : l.length ≤ i) : (l.map f).getD i d = d := by
  rw [List.getD_eq_getElem?_getD, List.getElem?_map,
    List.getElem?_eq_none hi]
  rfl

theorem take_one_getD {α : Type} (l : List α) (d : α) (hl : l ≠ []) :
    l.take 1 = [l.getD 0 d] := by
  cases l with
  | nil => exact absurd rfl hl
  | cons a t => rfl

theorem pySlice_left_clipped (s : List String) (w i : Nat) (hw : w ≤ i) (hi : i < s.length) :
    pySlice s ((i : Int) - w) i = (s.drop (i - w)).take (min w i) := by
  have hc1 : ((i : Int) - w) = ((i - w : Nat) : Int) := by omega
  unfold pySlice pyBound
  rw [if_neg (by omega : ¬ ((i : Int) - w < 0)), if_neg (by omega : ¬ ((i : Int) < 0)),
    hc1, Int.toNat_natCast, Int.toNat_natCast,
    min_eq_left (by omega : i - w ≤ s.length), min_eq_left (by omega : i ≤ s.length),
    List.drop_take]
  congr 1
  omega

theorem pySlice_right_clipped (s : List String) (w i : Nat) (hi : i < s.length) :
    pySlice s ((i : Int) + 1) ((i : Int) + 1 + w) = (s.drop (i + 1)).take w := by
  have hc2 : ((i : Int) + 1 + w) = ((i + 1 + w : Nat) : Int) := by omega
  have hc1 : ((i : Int) + 1) = ((i + 1 : Nat) : Int) := by omega
  unfold pySlice pyBound
  rw [if_neg (by omega : ¬ ((i : Int) + 1 < 0)), if_neg (by omega : ¬ ((i : Int) + 1 + w < 0)),
    hc2, hc1, Int.toNat_natCast, Int.toNat_natCast,
    min_eq_left (by omega : i + 1 ≤ s.length), List.drop_take]
  rw [List.take_eq_take]
  simp only [List.length_drop]
  omega

/-- Counterexample to claim C1 as stated: with window 2 and the target
at position 1 of a 3-word sentence, the Python slice `s[1-2:1]`, i.e.
`s[-1:1]`, wraps around to start at position 2 and is empty, so the
neighbor at position 0 inside the clipped range `[max(0,-1), 1)` is not
counted. -/
theorem get_cooccurance_count_counterexample :
    get_cooccurance_count 2 "b" "a" [["a", "b", "c"]] ≠
      cooccurance_count_spec 2 "b" "a" [["a", "b", "c"]] := by
  decide

/-- Claim C1, amended: the co-occurrence count equals the clipped-window
sum of the spec provided every occurrence of the target is at position
at least `window` in its sentence (for closer occurrences the Python
left slice `s[i-window:i]` wraps around instead of clipping); the
documented window-1 example evaluates to 2. -/
theorem get_cooccurance_count_clipped (w : Nat) (t nb : String) (ss : List (List String))
    (h : ∀ s ∈ ss, ∀ i, i < s.length → s.getD i "" = t → w ≤ i) :
    get_cooccurance_count w t nb ss = cooccurance_count_spec w t nb ss ∧
    get_cooccurance_count 1 "NLP" "like" [["I", "like", "NLP"], ["I", "like", "NLP", "problems"]] = 2 := by
  constructor
  · unfold get_cooccurance_count cooccurance_count_spec
    congr 1
    apply List.map_congr_left
    intro s hs
    unfold cooccurSentence
    congr 1
    apply List.map_congr_left
    intro i hi
    have hilen : i < s.length := List.mem_range.mp hi
    by_cases ht : s.getD i "" = t
    · rw [if_pos ht, if_pos ht]
      unfold clippedWindowCount
      rw [pySlice_left_clipped s w i (h s hs i hilen ht) hilen,
        pySlice_right_clipped s w i hilen, List.count_append]
    · rw [if_neg ht, if_neg ht]
  · decide

/-- Witness for the amended C1 at the documented example. -/
theorem get_cooccurance_count_clipped_witness :
    get_cooccurance_count 1 "NLP" "like" [["I", "like", "NLP"], ["I", "like", "NLP", "problems"]] =
      cooccurance_count_spec 1 "NLP" "like" [["I", "like", "NLP"], ["I", "like", "NLP", "problems"]] ∧
    get_cooccurance_count 1 "NLP" "like" [["I", "like", "NLP"], ["I", "like", "NLP", "problems"]] = 2 :=
  ⟨(get_cooccurance_count_clipped 1 "NLP" "like"
      [["I", "like", "NLP"], ["I", "like", "NLP", "problems"]] (by decide)).1,
   (get_cooccurance_count_clipped 1 "NLP" "like"
      [["I", "like", "NLP"], ["I", "like", "NLP", "problems"]] (by decide)).2⟩

theorem sum_map_range_succ (f : Nat → Nat) (n : Nat) :
    ((List.range (n + 1)).map f).sum = ((List.range n).map f).sum + f n := by
  rw [List.range_succ]
  simp

theorem sum_map_range_shift (f : Nat → Nat) (n : Nat) :
    ((List.range (n + 1)).map f).sum = f 0 + ((List.range n).map (fun j => f (j + 1))).sum := by
  rw [List.range_succ_eq_map]
  simp [List.map_map, Function.comp_def]

theorem sum_map_range_congr (f g : Nat → Nat) (n : Nat) (h : ∀ i, i < n → f i = g i) :
    ((List.range n).map f).sum = ((List.range n).map g).sum := by
  congr 1
  apply List.map_congr_left
  intro i hi
  exact h i (List.mem_range.mp hi)

theorem pySlice_left_one (s : List String) (i : Nat) (hi : i < s.length) :
    pySlice s ((i : Int) - (1 : Nat)) i = if i = 0 then [] else [s.getD (i - 1) ""] := by
  cases i with
  | zero =>
    rw [if_pos rfl]
    unfold pySlice pyBound
    have h0 : pyBound s.length ((0 : Nat) : Int) = 0 := by
      unfold pyBound
      simp
    simp
  | succ m =>
    rw [if_neg (by omega)]
    rw [pySlice_left_clipped s 1 (m + 1) (by omega) hi]
    have h1 : min 1 (m + 1) = 1 := by omega
    have h2 : m + 1 - 1 = m := by omega
    rw [h1, h2, take_one_getD _ "" ?hne]
    case hne =>
      have : (s.drop m).length = s.length - m := List.length_drop m s
      intro hnil
      rw [hnil] at this
      simp at this
      omega
    rw [List.getD_eq_getElem?_getD, List.getElem?_drop, Nat.add_zero,
      ← List.getD_eq_getElem?_getD]

theorem pySlice_right_one (s : List String) (i : Nat) (hi : i < s.length) :
    pySlice s ((i : Int) + 1) ((i : Int) + 1 + (1 : Nat)) =
      if i + 1 < s.length then [s.getD (i + 1) ""] else [] := by
  rw [pySlice_right_clipped s 1 i hi]
  by_cases h : i + 1 < s.length
  · rw [if_pos h, take_one_getD _ "" ?hne]
    case hne =>
      have : (s.drop (i + 1)).length = s.length - (i + 1) := List.length_drop (i + 1) s
      intro hnil
      rw [hnil] at this
      simp at this
      omega
    rw [List.getD_eq_getElem?_getD, List.getElem?_drop, Nat.add_zero,
      ← List.getD_eq_getElem?_getD]
  · rw [if_neg h, List.drop_eq_nil_of_le (by omega), List.take_nil]

theorem cooccurSentence_one_decompose (x y : String) (s : List String) :
    cooccurSentence 1 x y s =
      ((List.range s.length).map (fun i =>
        if s.getD i "" = x ∧ i ≠ 0 ∧ s.getD (i - 1) "" = y then 1 else 0)).sum +
      ((List.range s.length).map (fun i =>
        if s.getD i "" = x ∧ i + 1 < s.length ∧ s.getD (i + 1) "" = y then 1 else 0)).sum := by
  unfold cooccurSentence
  rw [← List.sum_map_add]
  apply sum_map_range_congr
  intro i hi
  by_cases hx : s.getD i "" = x
  · rw [if_pos hx, pySlice_left_one s i hi, pySlice_right_one s i hi, List.count_append]
    have hx2 : s[i]?.getD "" = x := by
      rw [← List.getD_eq_getElem?_getD]
      exact hx
    congr 1
    · by_cases h0 : i = 0
      · simp [h0]
      · rw [if_neg h0]
        simp [h0, hx2, List.count_singleton, beq_iff_eq]
    · by_cases h1 : i + 1 < s.length
      · rw [if_pos h1]
        simp [h1, hx2, List.count_singleton, beq_iff_eq]
      · rw [if_neg h1]
        simp [h1, hx2]
  · rw [if_neg hx, if_neg (fun hc => hx hc.1), if_neg (fun hc => hx hc.1)]

theorem cooccur_left_right_swap (x y : String) (s : List String) :
    ((List.range s.length).map (fun i =>
      if s.getD i "" = x ∧ i ≠ 0 ∧ s.getD (i - 1) "" = y then 1 else 0)).sum =
    ((List.range s.length).map (fun i =>
      if s.getD i "" = y ∧ i + 1 < s.length ∧ s.getD (i + 1) "" = x then 1 else 0)).sum := by
  rcases hn : s.length with _ | m
  · simp
  · rw [sum_map_range_shift, sum_map_range_succ]
    have h0 : (if s.getD 0 "" = x ∧ (0 : Nat) ≠ 0 ∧ s.getD (0 - 1) "" = y then 1 else 0) = 0 := by
      simp
    have hm : (if s.getD m "" = y ∧ m + 1 < m + 1 ∧ s.getD (m + 1) "" = x then 1 else 0) = 0 := by
      simp
    rw [h0, hm, Nat.zero_add, Nat.add_zero]
    apply sum_map_range_congr
    intro j hj
    have e : j + 1 - 1 = j := by omega
    rw [e]
    have h1 : j + 1 ≠ 0 := by omega
    have h2 : j + 1 < m + 1 := by omega
    exact if_congr (by tauto) rfl rfl

theorem cooccurSentence_one_symm (t nb : String) (s : List String) :
    cooccurSentence 1 t nb s = cooccurSentence 1 nb t s := by
  rw [cooccurSentence_one_decompose t nb s, cooccurSentence_one_decompose nb t s,
    cooccur_left_right_swap t nb s, cooccur_left_right_swap nb t s]
  exact Nat.add_comm _ _

/-- Counterexample to claim C2 as stated: with window 2 the count is
not symmetric, because the Python left slice wraps around for target
positions smaller than the window instead of clipping; and the matrix
builder never produces a matrix to compare at all — `np` is unbound in
`nlp.py`, so the call raises `NameError` (`none`). -/
theorem cooccurance_symm_counterexample :
    get_cooccurance_count 2 "a" "b" [["a", "b", "c"]] ≠
      get_cooccurance_count 2 "b" "a" [["a", "b", "c"]] ∧
    build_cooccurance_matrix 2 ["a", "b"] [["a", "b", "c"]] = none := by
  constructor
  · decide
  · rfl

/-- Claim C2, amended: `build_cooccurance_matrix` never returns a
matrix — its first statement evaluates `np.zeros` with `numpy` never
imported, so every call raises `NameError` — and at the count level
symmetry holds for window 1, the only window size for which the
Python slices agree with the clipped windows at every position:
`get_cooccurance_count(1, a, b, ss) == get_cooccurance_count(1, b, a, ss)`. -/
theorem cooccurance_symm_window_one :
    (∀ w vocab ss, build_cooccurance_matrix w vocab ss = none) ∧
    (∀ a b ss, get_cooccurance_count 1 a b ss = get_cooccurance_count 1 b a ss) := by
  refine ⟨fun w vocab ss => rfl, ?_⟩
  intro a b ss
  unfold get_cooccurance_count
  congr 1
  apply List.map_congr_left
  intro s _
  exact cooccurSentence_one_symm a b s

/-- Claim C4: `n_gram(n, text)` splits the text on single spaces into L
words and returns the `max(0, L-n+1)` contiguous windows of `n` words,
each joined by a single space, in left-to-right order. -/
theorem n_gram_spec (n : Nat) (hn : 1 ≤ n) (s : String) :
    ((n_gram n s).length : Int) = max 0 (((wordsOf s).length : Int) - n + 1) ∧
    ∀ i, i < (n_gram n s).length →
      (n_gram n s).getD i "" = joinSpace (((wordsOf s).drop i).take n) := by
  have hlen : (n_gram n s).length = (wordsOf s).length - (n - 1) := by
    simp [n_gram]
  constructor
  · rw [hlen]
    omega
  · intro i hi
    rw [hlen] at hi
    simpa only [n_gram] using getD_map_range _ _ i "" hi

/-- Witness for C4 at the documented example. -/
theorem n_gram_spec_witness :
    ((n_gram 2 "the rain in Spain falls mainly on the plain").length : Int) =
      max 0 (((wordsOf "the rain in Spain falls mainly on the plain").length : Int) - 2 + 1) ∧
    (n_gram 2 "the rain in Spain falls mainly on the plain").getD 0 "" =
      joinSpace (((wordsOf "the rain in Spain falls mainly on the plain").drop 0).take 2) :=
  ⟨(n_gram_spec 2 (by decide) _).1, (n_gram_spec 2 (by decide) _).2 0 (by decide)⟩

/-- Counterexample to claim C3 as stated: for k = 1, n = 4 the skip
gram starting at index 0 of a 7-word text is `"a c e"`, which is not
the space-join of the four words `word[0 + t*2]`, t = 0..3 (the code
emits only `1 + ceil((n+k-1)/(k+1))` words per entry, fewer than n once
n exceeds 3). -/
theorem skip_gram_counterexample :
    ¬ ((skip_gram 1 4 "a b c d e f g").getD 0 "" =
        joinSpace ((List.range 4).map (fun t => (wordsOf "a b c d e f g").getD (0 + t * 2) ""))) := by
  decide

/-- Claim C3, amended to n ∈ {2, 3}: the result has
`max(0, L - (n-1)*(k+1))` entries and entry i is the space-join of the
n words `word[i + t*(k+1)]`, t = 0..n-1. -/
theorem skip_gram_spec (k n : Nat) (hk : 1 ≤ k) (hn : n = 2 ∨ n = 3) (s : String) :
    ((skip_gram k n s).length : Int) =
      max 0 (((wordsOf s).length : Int) - ((n : Int) - 1) * ((k : Int) + 1)) ∧
    ∀ i, i < (skip_gram k n s).length →
      (skip_gram k n s).getD i "" =
        joinSpace ((List.range n).map (fun t => (wordsOf s).getD (i + t * (k + 1)) "")) := by
  have hL : (skip_gram k n s).length = (wordsOf s).length - (1 + k) * (n - 1) := by
    simp [skip_gram]
  have hsteps : pyRangeStep 1 (n + k) (k + 1) =
      (List.range (n - 1)).map (fun m => 1 + m * (k + 1)) := by
    rcases hn with h | h <;> subst h <;> unfold pyRangeStep
    · have h1 : 2 + k - 1 + (k + 1) - 1 = k + (k + 1) := by omega
      rw [h1, Nat.add_div_right _ (by omega), Nat.div_eq_of_lt (by omega)]
    · have h1 : 3 + k - 1 + (k + 1) - 1 = (k + 1) + (k + 1) := by omega
      rw [h1, Nat.add_div_right _ (by omega), Nat.div_self (by omega)]
  constructor
  · rw [hL]
    rcases hn with h | h <;> subst h <;> omega
  · intro i hi
    rw [hL] at hi
    have hmm : (skip_gram k n s).getD i "" =
        joinSpace ((wordsOf s).getD i "" ::
          (pyRangeStep 1 (n + k) (k + 1)).map (fun j => (wordsOf s).getD (i + k + j) "")) := by
      simp only [skip_gram, List.map_map]
      exact getD_map_range _ _ i "" hi
    rw [hmm, hsteps]
    rcases hn with h | h <;> subst h <;>
      simp only [List.range_succ, List.range_zero, List.map_nil, List.map_append,
        List.map_cons, List.nil_append, List.cons_append]
    · have e0 : i + k + (1 + 0 * (k + 1)) = i + k + 1 := by omega
      have e1 : i + 1 * (k + 1) = i + k + 1 := by omega
      have e2 : i + 0 * (k + 1) = i := by omega
      rw [e0, e1, e2]
    · have e0 : i + k + (1 + 0 * (k + 1)) = i + k + 1 := by omega
      have e1 : i + 1 * (k + 1) = i + k + 1 := by omega
      have e2 : i + 0 * (k + 1) = i := by omega
      have e3 : i + 2 * (k + 1) = i + k + (1 + 1 * (k + 1)) := by omega
      rw [e0, e1, e2, e3]

/-- Witness for the amended C3 at the documented example. -/
theorem skip_gram_spec_witness :
    ((skip_gram 1 2 "the rain in Spain falls mainly on the plain").length : Int) =
      max 0 (((wordsOf "the rain in Spain falls mainly on the plain").length : Int) -
        ((2 : Int) - 1) * ((1 : Int) + 1)) ∧
    (skip_gram 1 2 "the rain in Spain falls mainly on the plain").getD 0 "" =
      joinSpace ((List.range 2).map (fun t =>
        (wordsOf "the rain in Spain falls mainly on the plain").getD (0 + t * (1 + 1)) "")) :=
  ⟨by
    have h := (skip_gram_spec 1 2 (by decide) (Or.inl rfl)
      "the rain in Spain falls mainly on the plain").1
    simpa using h,
   (skip_gram_spec 1 2 (by decide) (Or.inl rfl)
      "the rain in Spain falls mainly on the plain").2 0 (by decide)⟩

theorem contains_of_mem {d : List String} {a : String} (h : a ∈ d) : d.contains a = true :=
  List.elem_eq_true_of_mem h

theorem mem_of_contains {d : List String} {a : String} (h : d.contains a = true) : a ∈ d :=
  List.elem_iff.mp h

/-- Claim C6: `tfidf` fails with a division-by-zero error exactly when
the document is empty or no document of the collection contains the
term; otherwise it returns (count of term in doc / len(doc)) times
ln(1 + |docs| / number of documents containing term) without error.
(The embedding returns the exact rational pair (tf, log argument); the
float the Python code returns is their combination under `Real.log`.) -/
theorem tfidf_spec (term : String) (doc : List String) (docs : List (List String)) :
    (tfidf term doc docs = none ↔ doc = [] ∨ ∀ d ∈ docs, term ∉ d) ∧
    (doc ≠ [] → (∃ d ∈ docs, term ∈ d) →
      tfidf term doc docs = some ((doc.count term : ℚ) / (doc.length : ℚ),
        1 + (docs.length : ℚ) / ((docs.filter (fun d => d.contains term)).length : ℚ)) ∧
      ∀ p : ℚ × ℚ, tfidf term doc docs = some p →
        (p.1 : ℝ) * Real.log (p.2 : ℝ) =
          ((doc.count term : ℝ) / (doc.length : ℝ)) *
            Real.log (1 + (docs.length : ℝ) /
              ((docs.filter (fun d => d.contains term)).length : ℝ))) := by
  have hfilter : (docs.filter (fun d => d.contains term)).length = 0 ↔ ∀ d ∈ docs, term ∉ d := by
    rw [List.length_eq_zero, List.filter_eq_nil_iff]
    constructor
    · intro h d hd hm
      exact h d hd (contains_of_mem hm)
    · intro h d hd hc
      exact h d hd (mem_of_contains hc)
  constructor
  · unfold tfidf
    by_cases h1 : doc.length = 0
    · simp only [if_pos h1, true_iff]
      exact Or.inl (List.length_eq_zero.mp h1)
    · rw [if_neg h1]
      by_cases h2 : (docs.filter (fun d => d.contains term)).length = 0
      · simp only [if_pos h2, true_iff]
        exact Or.inr (hfilter.mp h2)
      · simp only [if_neg h2]
        constructor
        · intro h
          exact absurd h (by simp)
        · intro h
          rcases h with h | h
          · exact absurd (by rw [h]; rfl) h1
          · exact absurd (hfilter.mpr h) h2
  · intro hdoc hex
    have h1 : ¬ doc.length = 0 := fun h => hdoc (List.length_eq_zero.mp h)
    have h2 : ¬ (docs.filter (fun d => d.contains term)).length = 0 := by
      intro h
      obtain ⟨d, hd, hm⟩ := hex
      exact (hfilter.mp h) d hd hm
    have heq : tfidf term doc docs = some ((doc.count term : ℚ) / (doc.length : ℚ),
        1 + (docs.length : ℚ) / ((docs.filter (fun d => d.contains term)).length : ℚ)) := by
      unfold tfidf
      rw [if_neg h1, if_neg h2]
    refine ⟨heq, ?_⟩
    intro p hp
    rw [heq] at hp
    have hp2 := Option.some.inj hp
    rw [← hp2]
    push_cast
    rfl

/-- Witness for C6 at the documented example. -/
theorem tfidf_spec_witness :
    tfidf "c" ["a", "c", "c"] [["a"], ["a", "c", "c"], ["a", "b", "c"]] =
      some ((2 : ℚ) / 3, 1 + (3 : ℚ) / 2) := by
  have h := (tfidf_spec "c" ["a", "c", "c"] [["a"], ["a", "c", "c"], ["a", "b", "c"]]).2
    (by decide) (by decide)
  have hc : List.count "c" ["a", "c", "c"] = 2 := by decide
  have hf : (List.filter (fun d => d.contains "c")
      [["a"], ["a", "c", "c"], ["a", "b", "c"]]).length = 2 := by decide
  rw [h.1, hc, hf]
  norm_num

theorem dictGet_nil (k : String) : dictGet [] k = none := rfl

theorem dictGet_cons (p : String × Nat) (rest : List (String × Nat)) (k : String) :
    dictGet (p :: rest) k = if p.1 == k then some p.2 else dictGet rest k := by
  unfold dictGet
  rw [List.find?_cons]
  cases h : (p.1 == k) <;> simp [h]

theorem dictGet_dictSet (d : List (String × Nat)) (k : String) (v : Nat) (q : String) :
    dictGet (dictSet d k v) q = if q = k then some v else dictGet d q := by
  induction d with
  | nil =>
    by_cases hq : q = k
    · simp [dictSet, dictGet_cons, hq]
    · simp [dictSet, dictGet_cons, hq, fun h => hq (beq_iff_eq.mp h).symm]
      intro h
      exact absurd h.symm hq
  | cons p rest ih =>
    simp only [dictSet]
    by_cases hpk : (p.1 == k) = true
    · have hp : p.1 = k := beq_iff_eq.mp hpk
      rw [if_pos hpk, dictGet_cons, dictGet_cons]
      by_cases hq : q = k
      · rw [if_pos hq, if_pos (by simp [hp, hq])]
      · rw [if_neg hq, if_neg (by simp [hp]; exact fun h => hq h.symm),
          if_neg (by simp [hp]; exact fun h => hq h.symm)]
    · rw [if_neg hpk, dictGet_cons, dictGet_cons]
      by_cases hq : q = k
      · have hpq : ¬ (p.1 == q) = true := by
          simp only [beq_iff_eq]
          intro h
          exact hpk (by simp [h, hq])
        rw [if_neg hpq, ih, if_pos hq, if_pos hq]
      · by_cases hpq : (p.1 == q) = true
        · rw [if_pos hpq, if_pos hpq, if_neg hq]
        · rw [if_neg hpq, if_neg hpq, ih, if_neg hq]

theorem dictKeys_cons (p : String × Nat) (d : List (String × Nat)) :
    dictKeys (p :: d) = p.1 :: dictKeys d := rfl

theorem dictKeys_dictSet (d : List (String × Nat)) (k : String) (v : Nat) :
    dictKeys (dictSet d k v) =
      if k ∈ dictKeys d then dictKeys d else dictKeys d ++ [k] := by
  induction d with
  | nil => simp [dictSet, dictKeys]
  | cons p rest ih =>
    simp only [dictSet]
    by_cases hpk : (p.1 == k) = true
    · have hp : p.1 = k := beq_iff_eq.mp hpk
      have hmem : k ∈ dictKeys (p :: rest) := by
        rw [dictKeys_cons]
        exact hp ▸ List.mem_cons_self p.1 (dictKeys rest)
      rw [if_pos hpk, if_pos hmem, dictKeys_cons, dictKeys_cons]
    · have hp : ¬ p.1 = k := by simpa using hpk
      rw [if_neg hpk, dictKeys_cons]
      by_cases hmem : k ∈ dictKeys rest
      · rw [ih, if_pos hmem,
          if_pos (show k ∈ dictKeys (p :: rest) from by
            rw [dictKeys_cons]; exact List.mem_cons_of_mem _ hmem),
          dictKeys_cons]
      · rw [ih, if_neg hmem,
          if_neg (show ¬ k ∈ dictKeys (p :: rest) from by
            rw [dictKeys_cons, List.mem_cons]
            rintro (h | h)
            · exact hp h.symm
            · exact hmem h),
          dictKeys_cons, List.cons_append]

theorem nodupKeys_dictSet (d : List (String × Nat)) (k : String) (v : Nat)
    (hd : NodupKeys d) : NodupKeys (dictSet d k v) := by
  unfold NodupKeys at hd ⊢
  rw [dictKeys_dictSet]
  by_cases hmem : k ∈ dictKeys d
  · rwa [if_pos hmem]
  · rw [if_neg hmem]
    rw [List.nodup_append]
    refine ⟨hd, List.nodup_singleton k, ?_⟩
    intro a ha hak
    rw [List.mem_singleton] at hak
    subst hak
    exact hmem ha

theorem dictGet_eq_none_iff (d : List (String × Nat)) (k : String) :
    dictGet d k = none ↔ ¬ k ∈ dictKeys d := by
  unfold dictGet dictKeys
  constructor
  · intro h hmem
    rcases List.mem_map.mp hmem with ⟨p, hp, hpk⟩
    rw [Option.map_eq_none', List.find?_eq_none] at h
    exact h p hp (by simp [hpk])
  · intro h
    rw [Option.map_eq_none', List.find?_eq_none]
    intro p hp hpk
    exact h (List.mem_map.mpr ⟨p, hp, beq_iff_eq.mp hpk⟩)

theorem find?_eq_none_of_not_mem_keys {l : List (String × Nat)} {q : String}
    (h : ¬ q ∈ dictKeys l) : l.find? (fun p => p.1 == q) = none := by
  rw [List.find?_eq_none]
  intro p hp hpq
  exact h (List.mem_map.mpr ⟨p, hp, beq_iff_eq.mp hpq⟩)

theorem mem_keys_of_find?_eq_some {l : List (String × Nat)} {q : String} {p : String × Nat}
    (h : l.find? (fun x => x.1 == q) = some p) : p ∈ l ∧ p.1 = q :=
  ⟨List.mem_of_find?_eq_some h, by
    have h2 := List.find?_some h
    simpa using h2⟩

/-- Lookup after a dict-assignment pass: with duplicate-free source
keys, a key of the source maps to the value written for its (unique)
entry, and any other key keeps its value from the initial
accumulator. -/
theorem dictGet_foldl_set (f : String × Nat → Nat) (l : List (String × Nat))
    (init : List (String × Nat)) (hl : NodupKeys l) (q : String) :
    dictGet (l.foldl (fun acc kv => dictSet acc kv.1 (f kv)) init) q =
      match l.find? (fun p => p.1 == q) with
      | some p => some (f p)
      | none => dictGet init q := by
  induction l generalizing init with
  | nil => rfl
  | cons kv rest ih =>
    have hn := (List.nodup_cons.mp hl)
    rw [List.foldl_cons, ih (dictSet init kv.1 (f kv)) hn.2, List.find?_cons]
    cases hq : (kv.1 == q) with
    | true =>
      have hkq : kv.1 = q := beq_iff_eq.mp hq
      have hrest : rest.find? (fun p => p.1 == q) = none := by
        apply find?_eq_none_of_not_mem_keys
        intro hm
        apply hn.1
        show kv.1 ∈ dictKeys rest
        rw [hkq]
        exact hm
      rw [hrest]
      simp only []
      rw [dictGet_dictSet, if_pos hkq.symm]
    | false =>
      cases hr : rest.find? (fun p => p.1 == q) with
      | some p => rfl
      | none =>
        simp only []
        rw [dictGet_dictSet, if_neg (fun h => by simp [h] at hq)]

theorem nodupKeys_foldl_set (f : String × Nat → Nat) (l : List (String × Nat))
    (init : List (String × Nat)) (hinit : NodupKeys init) :
    NodupKeys (l.foldl (fun acc kv => dictSet acc kv.1 (f kv)) init) := by
  induction l generalizing init with
  | nil => exact hinit
  | cons kv rest ih =>
    rw [List.foldl_cons]
    exact ih _ (nodupKeys_dictSet _ _ _ hinit)

theorem nodupKeys_merge_tokens (a b : List (String × Nat)) :
    NodupKeys (merge_tokens a b) := by
  unfold merge_tokens
  apply nodupKeys_foldl_set
  apply nodupKeys_foldl_set
  exact List.nodup_nil

theorem dictGet_eq_some_of_find? {l : List (String × Nat)} {q : String} {p : String × Nat}
    (h : l.find? (fun x => x.1 == q) = some p) : dictGet l q = some p.2 := by
  unfold dictGet
  rw [h]
  rfl

theorem dictGet_eq_none_of_find? {l : List (String × Nat)} {q : String}
    (h : l.find? (fun x => x.1 == q) = none) : dictGet l q = none := by
  unfold dictGet
  rw [h]
  rfl

/-- Pointwise characterization of `merge_tokens` on duplicate-free
token sets: every key maps to the sum of its counts. -/
theorem dictGet_merge_tokens (a b : List (String × Nat)) (ha : NodupKeys a)
    (hb : NodupKeys b) (q : String) :
    dictGet (merge_tokens a b) q =
      match dictGet a q, dictGet b q with
      | some x, some y => some (x + y)
      | some x, none => some x
      | none, some y => some y
      | none, none => none := by
  unfold merge_tokens
  rw [dictGet_foldl_set _ b _ hb q]
  cases hfb : b.find? (fun p => p.1 == q) with
  | some p =>
    obtain ⟨hpb, hpq⟩ := mem_keys_of_find?_eq_some hfb
    have hbq : dictGet b q = some p.2 := dictGet_eq_some_of_find? hfb
    rw [hbq]
    simp only []
    rw [hpq]
    cases haq : dictGet a q with
    | some x => simp only []
    | none => simp only []
  | none =>
    have hbq : dictGet b q = none := dictGet_eq_none_of_find? hfb
    rw [hbq, dictGet_foldl_set _ a _ ha q]
    cases hfa : a.find? (fun p => p.1 == q) with
    | some p =>
      obtain ⟨hpa, hpq⟩ := mem_keys_of_find?_eq_some hfa
      have haq : dictGet a q = some p.2 := dictGet_eq_some_of_find? hfa
      rw [haq]
      simp only []
      rw [hpq, hbq]
    | none =>
      have haq : dictGet a q = none := dictGet_eq_none_of_find? hfa
      rw [haq]
      rfl

/-- `sum(d.values())` of a duplicate-free dict as a sum of lookups over
its key set. -/
theorem sumVals_eq_sum_keys (d : List (String × Nat)) (hd : NodupKeys d) :
    sumVals d = ∑ k ∈ (dictKeys d).toFinset, (dictGet d k).getD 0 := by
  induction d with
  | nil => rfl
  | cons p rest ih =>
    have hn := List.nodup_cons.mp hd
    have hpmem : p.1 ∉ (dictKeys rest).toFinset := fun h => hn.1 (List.mem_toFinset.mp h)
    rw [dictKeys_cons, List.toFinset_cons, Finset.sum_insert hpmem]
    have hsum : ∀ k ∈ (dictKeys rest).toFinset,
        (dictGet (p :: rest) k).getD 0 = (dictGet rest k).getD 0 := by
      intro k hk
      rw [dictGet_cons, if_neg ?hne]
      case hne =>
        simp only [beq_iff_eq]
        intro h
        apply hn.1
        show p.1 ∈ dictKeys rest
        rw [h]
        exact List.mem_toFinset.mp hk
    rw [Finset.sum_congr rfl hsum, ← ih hn.2]
    have hself : dictGet (p :: rest) p.1 = some p.2 := by
      rw [dictGet_cons, if_pos (by simp)]
    rw [hself]
    simp [sumVals]

theorem mem_keys_iff_dictGet (d : List (String × Nat)) (k : String) :
    k ∈ dictKeys d ↔ dictGet d k ≠ none := by
  constructor
  · intro h hn
    exact (dictGet_eq_none_iff d k).mp hn h
  · intro h
    by_contra hm
    exact h ((dictGet_eq_none_iff d k).mpr hm)

theorem keysFinset_merge_tokens (a b : List (String × Nat)) (ha : NodupKeys a)
    (hb : NodupKeys b) :
    (dictKeys (merge_tokens a b)).toFinset = (dictKeys a).toFinset ∪ (dictKeys b).toFinset := by
  ext k
  rw [Finset.mem_union, List.mem_toFinset, List.mem_toFinset, List.mem_toFinset,
    mem_keys_iff_dictGet, mem_keys_iff_dictGet, mem_keys_iff_dictGet,
    dictGet_merge_tokens a b ha hb k]
  cases dictGet a k <;> cases dictGet b k <;> simp

/-- Claim C5: `merge_tokens` maps every key present in either input to
the sum of its counts (and no other key is present), is commutative up
to dict equality (pointwise equality of lookups, which is what Python
`==` compares for dicts), and preserves the total count. -/
theorem merge_tokens_spec (a b : List (String × Nat)) (ha : NodupKeys a) (hb : NodupKeys b) :
    (∀ k, dictGet (merge_tokens a b) k =
      match dictGet a k, dictGet b k with
      | some x, some y => some (x + y)
      | some x, none => some x
      | none, some y => some y
      | none, none => none) ∧
    (∀ k, dictGet (merge_tokens a b) k = dictGet (merge_tokens b a) k) ∧
    sumVals (merge_tokens a b) = sumVals a + sumVals b := by
  refine ⟨dictGet_merge_tokens a b ha hb, ?_, ?_⟩
  · intro k
    rw [dictGet_merge_tokens a b ha hb k, dictGet_merge_tokens b a hb ha k]
    cases dictGet a k <;> cases dictGet b k <;> simp [Nat.add_comm]
  · rw [sumVals_eq_sum_keys _ (nodupKeys_merge_tokens a b),
      keysFinset_merge_tokens a b ha hb]
    have hpt : ∀ k ∈ (dictKeys a).toFinset ∪ (dictKeys b).toFinset,
        (dictGet (merge_tokens a b) k).getD 0 =
          (dictGet a k).getD 0 + (dictGet b k).getD 0 := by
      intro k _
      rw [dictGet_merge_tokens a b ha hb k]
      cases dictGet a k <;> cases dictGet b k <;> simp
    rw [Finset.sum_congr rfl hpt, Finset.sum_add_distrib]
    congr 1
    · rw [sumVals_eq_sum_keys a ha]
      refine (Finset.sum_subset Finset.subset_union_left ?_).symm
      intro x _ hx
      have : dictGet a x = none :=
        (dictGet_eq_none_iff a x).mpr (fun hm => hx (List.mem_toFinset.mpr hm))
      rw [this]
      rfl
    · rw [sumVals_eq_sum_keys b hb]
      refine (Finset.sum_subset Finset.subset_union_right ?_).symm
      intro x _ hx
      have : dictGet b x = none :=
        (dictGet_eq_none_iff b x).mpr (fun hm => hx (List.mem_toFinset.mpr hm))
      rw [this]
      rfl

/-- Witness for C5 at concrete token sets. -/
theorem merge_tokens_spec_witness :
    NodupKeys [("x", 1), ("y", 2)] ∧ NodupKeys [("y", 3), ("z", 4)] ∧
    sumVals (merge_tokens [("x", 1), ("y", 2)] [("y", 3), ("z", 4)]) =
      sumVals [("x", 1), ("y", 2)] + sumVals [("y", 3), ("z", 4)] :=
  ⟨by unfold NodupKeys; decide, by unfold NodupKeys; decide,
   (merge_tokens_spec [("x", 1), ("y", 2)] [("y", 3), ("z", 4)]
     (by unfold NodupKeys; decide) (by unfold NodupKeys; decide)).2.2⟩

theorem splitSpacesAux_ne_nil (l : List Char) (cur : List Char) :
    splitSpacesAux cur l ≠ [] := by
  induction l generalizing cur with
  | nil => simp [splitSpacesAux]
  | cons c cs ih =>
    unfold splitSpacesAux
    by_cases h : c = ' '
    · simp [h]
    · rw [if_neg h]
      exact ih _

theorem wordsOf_ne_nil (s : String) : wordsOf s ≠ [] := splitSpacesAux_ne_nil s.data []

theorem pyIdx_neg_two {l : List String} (h : 2 ≤ l.length) :
    pyIdx l (-2) = some (l.getD (l.length - 2) "") := by
  unfold pyIdx
  rw [if_pos (by omega : (-2 : Int) < 0), if_pos (by omega : (0 : Int) ≤ -2 + l.length)]
  have ht : ((-2 : Int) + l.length).toNat = l.length - 2 := by omega
  rw [ht, List.getElem?_eq_getElem (by omega), List.getD_eq_getElem?_getD,
    List.getElem?_eq_getElem (by omega)]
  rfl

theorem pyIdx_neg_one {l : List String} (h : 1 ≤ l.length) :
    pyIdx l (-1) = some (l.getD (l.length - 1) "") := by
  unfold pyIdx
  rw [if_pos (by omega : (-1 : Int) < 0), if_pos (by omega : (0 : Int) ≤ -1 + l.length)]
  have ht : ((-1 : Int) + l.length).toNat = l.length - 1 := by omega
  rw [ht, List.getElem?_eq_getElem (by omega), List.getD_eq_getElem?_getD,
    List.getElem?_eq_getElem (by omega)]
  rfl

theorem getLastD_eq_getD_length_sub_one (l : List String) :
    l.getLastD "" = l.getD (l.length - 1) "" := by
  rw [List.getLastD_eq_getLast?, List.getLast?_eq_getElem?, List.getD_eq_getElem?_getD]

theorem pyIdx_neg_one_words (s : String) :
    pyIdx (wordsOf s) (-1) = some (lastWord s) := by
  have h1 : 1 ≤ (wordsOf s).length := by
    have := wordsOf_ne_nil s
    cases hw : wordsOf s with
    | nil => exact absurd hw this
    | cons a t => simp
  rw [pyIdx_neg_one h1]
  unfold lastWord
  rw [getLastD_eq_getD_length_sub_one]

theorem mem_sortTokensInsert (x y : String × Nat) (l : List (String × Nat)) :
    y ∈ sortTokensInsert x l ↔ y = x ∨ y ∈ l := by
  induction l with
  | nil => simp [sortTokensInsert]
  | cons z zs ih =>
    unfold sortTokensInsert
    by_cases h : x.2 < z.2
    · rw [if_pos h]
      simp only [List.mem_cons, ih]
      tauto
    · rw [if_neg h]
      simp only [List.mem_cons]

theorem mem_sortTokens (y : String × Nat) (t : List (String × Nat)) :
    y ∈ sortTokens t ↔ y ∈ t := by
  induction t with
  | nil => simp [sortTokens]
  | cons kv rest ih =>
    unfold sortTokens at ih ⊢
    rw [List.foldr_cons, mem_sortTokensInsert, ih, List.mem_cons]

theorem sortTokensInsert_sorted (x : String × Nat) (l : List (String × Nat))
    (h : l.Pairwise (fun p q => q.2 ≤ p.2)) :
    (sortTokensInsert x l).Pairwise (fun p q => q.2 ≤ p.2) := by
  induction l with
  | nil => simp [sortTokensInsert]
  | cons z zs ih =>
    have hz := List.pairwise_cons.mp h
    unfold sortTokensInsert
    by_cases hlt : x.2 < z.2
    · rw [if_pos hlt]
      rw [List.pairwise_cons]
      refine ⟨?_, ih hz.2⟩
      intro a ha
      rcases (mem_sortTokensInsert x a zs).mp ha with rfl | ha2
      · omega
      · exact hz.1 a ha2
    · rw [if_neg hlt]
      rw [List.pairwise_cons]
      refine ⟨?_, h⟩
      intro a ha
      rcases List.mem_cons.mp ha with rfl | ha2
      · omega
      · have := hz.1 a ha2
        omega

theorem sortTokens_sorted (t : List (String × Nat)) :
    (sortTokens t).Pairwise (fun p q => q.2 ≤ p.2) := by
  induction t with
  | nil => simp [sortTokens]
  | cons kv rest ih =>
    unfold sortTokens at ih ⊢
    rw [List.foldr_cons]
    exact sortTokensInsert_sorted kv _ ih

theorem filter_sortTokensInsert (x : String × Nat) (l : List (String × Nat)) (c : Nat) :
    (sortTokensInsert x l).filter (fun p => p.2 == c) =
      if x.2 == c then x :: l.filter (fun p => p.2 == c)
      else l.filter (fun p => p.2 == c) := by
  induction l with
  | nil =>
    unfold sortTokensInsert
    simp [List.filter_cons]
  | cons z zs ih =>
    unfold sortTokensInsert
    by_cases hlt : x.2 < z.2
    · rw [if_pos hlt, List.filter_cons, ih, List.filter_cons]
      by_cases hx : (x.2 == c) = true
      · have hz : (z.2 == c) = false := by
          have hxc : x.2 = c := beq_iff_eq.mp hx
          simp only [beq_eq_false_iff_ne]
          omega
        simp [hz, hx]
      · have hxf : (x.2 == c) = false := by simpa using hx
        simp only [hxf, Bool.false_eq_true, if_false]
    · rw [if_neg hlt, List.filter_cons]

theorem filter_sortTokens (t : List (String × Nat)) (c : Nat) :
    (sortTokens t).filter (fun p => p.2 == c) = t.filter (fun p => p.2 == c) := by
  induction t with
  | nil => rfl
  | cons kv rest ih =>
    unfold sortTokens at ih ⊢
    rw [List.foldr_cons, filter_sortTokensInsert, List.filter_cons]
    cases h : (kv.2 == c) <;> simp [h, ih]

/-- The scanning loop returns the last word of the first matching key
when every key has at least two words. -/
theorem bigramLoop_eq_find? (start : String) (l : List (String × Nat))
    (hl : ∀ kv ∈ l, 2 ≤ (wordsOf kv.1).length) :
    bigramLoop start l =
      some (match l.find? (fun kv => secondLastWord kv.1 == start) with
        | some kv => lastWord kv.1
        | none => "") := by
  induction l with
  | nil => rfl
  | cons kv rest ih =>
    have h2 : 2 ≤ (wordsOf kv.1).length := hl kv (List.mem_cons_self kv rest)
    have hminus : pyIdx (wordsOf kv.1) (-2) = some (secondLastWord kv.1) := pyIdx_neg_two h2
    by_cases heq : start = secondLastWord kv.1
    · have hpred : (secondLastWord kv.1 == start) = true := by simp [heq]
      simp only [bigramLoop, hminus, List.find?_cons, hpred, if_pos heq,
        pyIdx_neg_one_words]
    · have hpred : (secondLastWord kv.1 == start) = false := by
        simp only [beq_eq_false_iff_ne]
        exact fun h => heq h.symm
      simp only [bigramLoop, hminus, List.find?_cons, hpred, if_neg heq]
      exact ih (fun x hx => hl x (List.mem_cons_of_mem kv hx))

/-- Claim C8: `bigram_predict` stably sorts the token table by count
descending (sorted output, insertion order preserved among equal
counts), scans it in that order, and returns the last word of the first
key whose second-to-last word equals the last word of the prefix text
(the empty string when no key matches); on the documented example it
predicts "rain". -/
theorem bigram_predict_spec (t : List (String × Nat)) (s : String)
    (hkeys : ∀ kv ∈ t, 2 ≤ (wordsOf kv.1).length) :
    (sortTokens t).Pairwise (fun p q => q.2 ≤ p.2) ∧
    (∀ c, (sortTokens t).filter (fun p => p.2 == c) = t.filter (fun p => p.2 == c)) ∧
    bigram_predict t s = some (bigramScanSpec t s) ∧
    bigram_predict [("the rain", 2), ("in spain", 2), ("rain in", 2), ("spain falls", 1),
      ("falls mainly", 1), ("mainly in", 1)] "in the" = some "rain" := by
  refine ⟨sortTokens_sorted t, filter_sortTokens t, ?_, by decide⟩
  unfold bigram_predict bigramScanSpec
  rw [pyIdx_neg_one_words s]
  exact bigramLoop_eq_find? (lastWord s) (sortTokens t)
    (fun kv hkv => hkeys kv ((mem_sortTokens kv t).mp hkv))

/-- Witness for C8 at the documented example. -/
theorem bigram_predict_spec_witness :
    bigram_predict [("the rain", 2), ("in spain", 2), ("rain in", 2), ("spain falls", 1),
      ("falls mainly", 1), ("mainly in", 1)] "in the" = some "rain" :=
  (bigram_predict_spec [("the rain", 2), ("in spain", 2), ("rain in", 2), ("spain falls", 1),
      ("falls mainly", 1), ("mainly in", 1)] "in the" (by decide)).2.2.2

/-- Claim C10: `bigram_predict` is total only on tables whose scanned
keys split into at least two words: a one-word key reached during the
scan makes the `ngram[-2]` access an out-of-bounds error (`none` in the
embedding), which the spec's interface table does not exclude; when
every key has at least two words the function always returns a value,
and a one-word key placed after the first match is never reached. -/
theorem bigram_predict_unigram_unsafe :
    bigram_predict [("hello", 5)] "hi there" = none ∧
    (∀ t s, (∀ kv ∈ t, 2 ≤ (wordsOf kv.1).length) → ∃ r, bigram_predict t s = some r) ∧
    bigram_predict [("a b", 2), ("c", 1)] "x a" = some "b" := by
  refine ⟨by decide, ?_, by decide⟩
  intro t s h
  exact ⟨(match (sortTokens t).find? (fun kv => secondLastWord kv.1 == lastWord s) with
      | some kv => lastWord kv.1
      | none => ""), by
    simp only [bigram_predict, pyIdx_neg_one_words]
    exact bigramLoop_eq_find? (lastWord s) (sortTokens t)
      (fun kv hkv => h kv ((mem_sortTokens kv t).mp hkv))⟩

/-- Witness for C10 (the totality conjunct) at a concrete table. -/
theorem bigram_predict_unigram_unsafe_witness :
    ∃ r, bigram_predict [("x y", 1)] "z x" = some r :=
  bigram_predict_unigram_unsafe.2.1 [("x y", 1)] "z x" (by decide)

/-- Counterexample to claim C9 as stated: "thinking" ends in "ing" (its
last three letters match an `*ing` pattern), but the stemmer reduces it
to "think" — the code's own doctest — because the exception regex is
checked with `re.match`, i.e. anchored at the start of the word, not at
its end. -/
theorem stem_ing_suffix_counterexample :
    ("ing".data).isSuffixOf ("thinking".data) = true ∧
    stem "thinking" = "think" ∧ stem "thinking" ≠ "thinking" := by
  refine ⟨by decide, by decide, by decide⟩

/-- Claim C9, amended: the listed exception words pass through `stem`
unchanged, and so does any word whose first letters match
`[A-Za-z]ing` or `[A-Za-z].ing` — a prefix condition (the regex is
tried with `re.match`), not a suffix condition. -/
theorem stem_exceptions :
    (∀ w : String, (genericIng1 w.data || genericIng2 w.data) = true → stem w = w) ∧
    (stem "something" = "something" ∧ stem "nothing" = "nothing" ∧ stem "during" = "during" ∧
     stem "evening" = "evening" ∧ stem "morning" = "morning" ∧ stem "string" = "string" ∧
     stem "ceiling" = "ceiling" ∧ stem "sterling" = "sterling" ∧ stem "cling" = "cling" ∧
     stem "gosling" = "gosling" ∧ stem "icing" = "icing" ∧ stem "shilling" = "shilling" ∧
     stem "sting" = "sting" ∧ stem "viking" = "viking" ∧ stem "filing" = "filing" ∧
     stem "carling" = "carling") := by
  constructor
  · intro w hw
    have hor : genericIng1 w.data = true ∨ genericIng2 w.data = true := by
      simpa using hw
    unfold stem
    rw [if_pos ?_]
    unfold exceptions_ing
    rcases hor with h | h <;> simp [h]
  · decide

/-- Witness for the amended C9 at a concrete word. -/
theorem stem_exceptions_witness :
    (genericIng1 "sing".data || genericIng2 "sing".data) = true ∧ stem "sing" = "sing" :=
  ⟨by decide, stem_exceptions.1 "sing" (by decide)⟩

/-- Counterexample to claim C7 as stated: "a i i b" is all-lowercase,
punctuation-free and number-free, but normalization is not idempotent
on it: `re.sub(r'\s+i\s+', ...)` consumes the space after the first
standalone `i`, so the second `i` is not uppercased on the first pass
and is uppercased on the second. -/
theorem normalize_not_idempotent_counterexample :
    (∀ c ∈ ("a i i b" : String).data, lowerSpace c = true) ∧
    normalizeText "a i i b" = "a I i b" ∧
    normalizeText (normalizeText "a i i b") = "a I I b" ∧
    normalizeText (normalizeText "a i i b") ≠ normalizeText "a i i b" :=
  ⟨by decide, by decide, by decide, by decide⟩

theorem containsSeq_cons (pat : List Char) (c : Char) (cs : List Char) :
    containsSeq pat (c :: cs) = (pat.isPrefixOf (c :: cs) || containsSeq pat cs) := rfl

theorem containsSeq_tail_false {pat : List Char} {c : Char} {cs : List Char}
    (h : containsSeq pat (c :: cs) = false) : containsSeq pat cs = false :=
  (Bool.or_eq_false_iff.mp h).2

theorem isPrefixOf_false_of_containsSeq_false {pat : List Char} {c : Char} {cs : List Char}
    (h : containsSeq pat (c :: cs) = false) : pat.isPrefixOf (c :: cs) = false :=
  (Bool.or_eq_false_iff.mp h).1

theorem containsSeq_append_pat (x pat y : List Char) :
    containsSeq pat (x ++ (pat ++ y)) = true := by
  induction x with
  | nil =>
    rw [List.nil_append]
    cases pat with
    | nil => cases y <;> simp [containsSeq]
    | cons p ps =>
      have hpre : (p :: ps).isPrefixOf ((p :: ps) ++ y) = true :=
        List.isPrefixOf_iff_prefix.mpr (List.prefix_append _ _)
      rw [show ((p :: ps) ++ y : List Char) = p :: (ps ++ y) from rfl] at hpre
      rw [show ((p :: ps) ++ y : List Char) = p :: (ps ++ y) from rfl, containsSeq_cons, hpre]
      rfl
  | cons a x ih =>
    rw [List.cons_append, containsSeq_cons, ih]
    simp

theorem containsSeq_cons_of {pat : List Char} {cs : List Char} (c : Char)
    (h : containsSeq pat cs = true) : containsSeq pat (c :: cs) = true := by
  rw [containsSeq_cons, h]
  simp

theorem patMatch_none_of_missing {pat : List (Char → Bool)} {t : List Char}
    (h : ∃ p ∈ pat, ∀ c ∈ t, p c = false) : patMatch pat t = none := by
  induction pat generalizing t with
  | nil =>
    rcases h with ⟨p, hp, _⟩
    exact absurd hp (List.not_mem_nil p)
  | cons q qs ih =>
    cases t with
    | nil => rfl
    | cons c cs =>
      rcases h with ⟨p, hp, hpf⟩
      rcases List.mem_cons.mp hp with rfl | hp2
      · unfold patMatch
        rw [hpf c (List.mem_cons_self c cs)]
        rfl
      · unfold patMatch
        by_cases hq : q c = true
        · rw [if_pos hq]
          exact ih ⟨p, hp2, fun d hd => hpf d (List.mem_cons_of_mem c hd)⟩
        · rw [if_neg hq]

theorem subScan_id {pat : List (Char → Bool)} {repl : List Char}
    (fuel : Nat) (s : List Char) (h : ∃ p ∈ pat, ∀ c ∈ s, p c = false) :
    subScan pat repl fuel s = s := by
  induction fuel generalizing s with
  | zero => rfl
  | succ fuel ih =>
    cases s with
    | nil => rfl
    | cons c cs =>
      unfold subScan
      rw [patMatch_none_of_missing h]
      rcases h with ⟨p, hp, hpf⟩
      rw [ih cs ⟨p, hp, fun d hd => hpf d (List.mem_cons_of_mem c hd)⟩]

theorem foldl_subScan_id (rules : List (List (Char → Bool) × List Char)) (l : List Char)
    (h : ∀ r ∈ rules, ∃ p ∈ r.1, ∀ c ∈ l, p c = false) :
    rules.foldl (fun acc r => subScan r.1 r.2 acc.length acc) l = l := by
  induction rules with
  | nil => rfl
  | cons r rest ih =>
    rw [List.foldl_cons, subScan_id l.length l (h r (List.mem_cons_self r rest))]
    exact ih (fun q hq => h q (List.mem_cons_of_mem r hq))

theorem apos_beq_false {c : Char} (hc : lowerSpace c = true) : (apos == c) = false := by
  by_contra hb
  have : apos = c := by
    have := Bool.not_eq_false _ |>.mp hb
    exact beq_iff_eq.mp this
  rw [← this] at hc
  exact absurd hc (by decide)

/-- `expand` leaves any apostrophe-free lowercase-and-space text
unchanged: every contraction pattern requires an apostrophe. -/
theorem expand_id (l : List Char) (hl : ∀ c ∈ l, lowerSpace c = true) :
    expand l = l := by
  apply foldl_subScan_id
  intro r hr
  have happ : ∀ c ∈ l, ((fun c => apos == c) c) = false := fun c hc => apos_beq_false (hl c hc)
  rcases List.mem_cons.mp hr with rfl | hr2
  · exact ⟨fun c => apos == c,
      List.mem_cons_of_mem _ (List.mem_map.mpr ⟨apos, by decide, rfl⟩), happ⟩
  · fin_cases hr2 <;>
      exact ⟨fun c => apos == c, List.mem_map.mpr ⟨apos, by decide, rfl⟩, happ⟩

theorem subAfter_id (prevP : Char → Bool) (target : Char) (l : List Char)
    (h : ∀ c ∈ l, (c == target) = false) : ∀ prev, subAfter prevP target prev l = l := by
  induction l with
  | nil => intro prev; rfl
  | cons c cs ih =>
    intro prev
    unfold subAfter
    rw [h c (List.mem_cons_self c cs)]
    rw [Bool.false_and, if_neg (by simp)]
    rw [ih (fun d hd => h d (List.mem_cons_of_mem c hd)) (some c)]

theorem takeWhile_digit_nil {l : List Char} (h : ∀ c ∈ l, isDigitC c = false) :
    l.takeWhile isDigitC = [] := by
  cases hl : l.takeWhile isDigitC with
  | nil => rfl
  | cons e es =>
    have he : e ∈ l.takeWhile isDigitC := by rw [hl]; exact List.mem_cons_self e es
    have h1 : isDigitC e = true := List.mem_takeWhile_imp he
    have h2 : e ∈ l := List.takeWhile_subset _ he
    rw [h e h2] at h1
    exact absurd h1 (by decide)

theorem upperizeNum_id (fuel : Nat) (l : List Char) (h : ∀ c ∈ l, isDigitC c = false) :
    upperizeNum fuel l = l := by
  induction fuel generalizing l with
  | zero => rfl
  | succ fuel ih =>
    cases l with
    | nil => rfl
    | cons c cs =>
      have hsub : ∀ c2 ∈ (((c :: cs).drop ((c :: cs).takeWhile isUpperAlpha).length).drop
          ((((c :: cs).drop ((c :: cs).takeWhile isUpperAlpha).length)).takeWhile
            isLowerAlpha).length), isDigitC c2 = false :=
        fun c2 hc2 => h c2 (List.drop_subset _ _ (List.drop_subset _ _ hc2))
      simp only [upperizeNum, takeWhile_digit_nil hsub, List.isEmpty_nil, if_true]
      rw [ih cs (fun d hd => h d (List.mem_cons_of_mem c hd))]

theorem oneNumRep_none {l : List Char} (h : ∀ c ∈ l, isDigitC c = false) :
    oneNumRep l = none := by
  cases l with
  | nil => rfl
  | cons c cs =>
    by_cases hs : isSpaceC c = true <;>
      simp [oneNumRep, hs, takeWhile_digit_nil (fun d hd => h d (List.mem_cons_of_mem c hd))]

theorem numReps_none {l : List Char} (fuel : Nat) (h : ∀ c ∈ l, isDigitC c = false) :
    numReps fuel l = none := by
  cases fuel with
  | zero => rfl
  | succ fuel =>
    unfold numReps
    rw [oneNumRep_none h]

theorem subNums1_id (fuel : Nat) (l : List Char) (h : ∀ c ∈ l, isDigitC c = false) :
    subNums1 fuel l = l := by
  induction fuel generalizing l with
  | zero => rfl
  | succ fuel ih =>
    cases l with
    | nil => rfl
    | cons c cs =>
      unfold subNums1
      rw [numReps_none (fuel + 1) h]
      rw [ih cs (fun d hd => h d (List.mem_cons_of_mem c hd))]

theorem subNums2_id (l : List Char) (h : ∀ c ∈ l, isDigitC c = false) :
    subNums2 l = l := by
  unfold subNums2
  rw [takeWhile_digit_nil h]
  rfl

theorem intTokMatch_none {l : List Char} (h : ∀ c ∈ l, isDigitC c = false) :
    intTokMatch l = none := by
  cases l with
  | nil => rfl
  | cons c cs =>
    have h2 : ∀ d ∈ (cs.drop ((cs.takeWhile (fun x => x == '-' || x == '+')).length)),
        isDigitC d = false :=
      fun d hd => h d (List.mem_cons_of_mem c (List.drop_subset _ _ hd))
    by_cases hs : isSpaceC c = true <;>
      simp [intTokMatch, hs, takeWhile_digit_nil h2]

theorem subNums3_id (fuel : Nat) (l : List Char) (h : ∀ c ∈ l, isDigitC c = false) :
    subNums3 fuel l = l := by
  induction fuel generalizing l with
  | zero => rfl
  | succ fuel ih =>
    cases l with
    | nil => rfl
    | cons c cs =>
      unfold subNums3
      rw [intTokMatch_none h]
      rw [ih cs (fun d hd => h d (List.mem_cons_of_mem c hd))]

theorem floatTokMatch_none {l : List Char} (h : ∀ c ∈ l, isDigitC c = false) :
    floatTokMatch l = none := by
  cases l with
  | nil => rfl
  | cons c cs =>
    have h2 : ∀ d ∈ (cs.drop ((cs.takeWhile (fun x => x == '-' || x == '+')).length)),
        isDigitC d = false :=
      fun d hd => h d (List.mem_cons_of_mem c (List.drop_subset _ _ hd))
    by_cases hs : isSpaceC c = true <;>
      simp [floatTokMatch, hs, takeWhile_digit_nil h2]

theorem subNums4_id (fuel : Nat) (l : List Char) (h : ∀ c ∈ l, isDigitC c = false) :
    subNums4 fuel l = l := by
  induction fuel generalizing l with
  | zero => rfl
  | succ fuel ih =>
    cases l with
    | nil => rfl
    | cons c cs =>
      unfold subNums4
      rw [floatTokMatch_none h]
      rw [ih cs (fun d hd => h d (List.mem_cons_of_mem c hd))]

theorem remove_numbers_id (l : List Char) (h : ∀ c ∈ l, isDigitC c = false) :
    remove_numbers l = l := by
  simp only [remove_numbers, subNums1_id _ _ h, subNums2_id _ h, subNums3_id _ _ h,
    subNums4_id _ _ h]

theorem standardize_abbreviations_id (l : List Char)
    (hdot : ∀ c ∈ l, (c == '.') = false) (hdash : ∀ c ∈ l, (c == '-') = false)
    (hdig : ∀ c ∈ l, isDigitC c = false) :
    standardize_abbreviations l = l := by
  simp only [standardize_abbreviations, subAfter_id isUpperAlpha '.' l hdot none,
    subAfter_id isUpperAlpha '-' l hdash none, subAfter_id isLowerAlpha '-' l hdash none,
    upperizeNum_id l.length l hdig]

theorem hasUpperLower_cons_false {a : Char} {l : List Char}
    (ha : isUpperAlpha a = false) (hl : hasUpperLower l = false) :
    hasUpperLower (a :: l) = false := by
  cases l with
  | nil => rfl
  | cons b bs =>
    unfold hasUpperLower
    rw [ha, Bool.false_and, Bool.false_or]
    exact hl

theorem hasUpperLower_cons_upper {a b : Char} {l : List Char}
    (hb : isLowerAlpha b = false) (hl : hasUpperLower (b :: l) = false) :
    hasUpperLower (a :: b :: l) = false := by
  unfold hasUpperLower
  rw [hb, Bool.and_false, Bool.false_or]
  exact hl

theorem hasUpperLower_tail_false {a : Char} {l : List Char}
    (h : hasUpperLower (a :: l) = false) : hasUpperLower l = false := by
  cases l with
  | nil => rfl
  | cons b bs =>
    unfold hasUpperLower at h
    exact (Bool.or_eq_false_iff.mp h).2

theorem hasUpperLower_of_no_upper {l : List Char} (h : ∀ c ∈ l, isUpperAlpha c = false) :
    hasUpperLower l = false := by
  induction l with
  | nil => rfl
  | cons a t ih =>
    exact hasUpperLower_cons_false (h a (List.mem_cons_self a t))
      (ih (fun d hd => h d (List.mem_cons_of_mem a hd)))

theorem lc1_id (fuel : Nat) (l : List Char) (h : hasUpperLower l = false) :
    lc1 fuel l = l := by
  induction fuel generalizing l with
  | zero => rfl
  | succ fuel ih =>
    cases l with
    | nil => rfl
    | cons c cs =>
      unfold lc1
      by_cases hc : isUpperAlpha c = true
      · rw [if_pos hc]
        cases cs with
        | nil =>
          show c :: lc1 fuel [] = [c]
          rw [ih [] rfl]
        | cons c2 rest =>
          have h2 : isLowerAlpha c2 = false := by
            unfold hasUpperLower at h
            have := (Bool.or_eq_false_iff.mp h).1
            rcases Bool.and_eq_false_iff.mp this with h3 | h3
            · exact absurd hc (by rw [h3] at hc; exact absurd hc (by simp))
            · exact h3
          show (if isLowerAlpha c2 = true then
              c.toLower :: (((c2 :: rest).takeWhile isLowerAlpha) ++
                lc1 fuel ((c2 :: rest).drop ((c2 :: rest).takeWhile isLowerAlpha).length))
            else c :: lc1 fuel (c2 :: rest)) = c :: c2 :: rest
          rw [if_neg (by rw [h2]; simp), ih _ (hasUpperLower_tail_false h)]
      · rw [if_neg hc, ih _ (hasUpperLower_tail_false h)]

theorem lc2_id (l : List Char) (h : ∀ c ∈ l, isUpperAlpha c = false) : lc2 l = l := by
  cases l with
  | nil => rfl
  | cons c cs =>
    cases cs with
    | nil => rfl
    | cons c2 rest =>
      show (if (isUpperAlpha c && isSpaceC c2) = true then c.toLower :: c2 :: rest
        else c :: c2 :: rest) = c :: c2 :: rest
      rw [h c (List.mem_cons_self _ _), Bool.false_and, if_neg (by simp)]

theorem lowercase_id (l : List Char) (h : ∀ c ∈ l, isUpperAlpha c = false) :
    lowercase l = l := by
  unfold lowercase
  rw [lc1_id _ _ (hasUpperLower_of_no_upper h), lc2_id _ h]

theorem remPunct_id (fuel : Nat) (l : List Char)
    (h : ∀ c ∈ l, isAlnumC c = true ∨ c = ' ')
    (hss : containsSeq [' ', ' '] l = false) :
    remPunct fuel l = l := by
  induction fuel generalizing l with
  | zero => rfl
  | succ fuel ih =>
    cases l with
    | nil => rfl
    | cons c cs =>
      unfold remPunct
      by_cases hc : isAlnumC c = true
      · rw [if_pos hc,
          ih cs (fun d hd => h d (List.mem_cons_of_mem c hd)) (containsSeq_tail_false hss)]
      · have hcsp : c = ' ' := by
          rcases h c (List.mem_cons_self c cs) with h1 | h1
          · exact absurd h1 hc
          · exact h1
        rw [if_neg hc]
        have hcf : isAlnumC c = false := by simpa using hc
        have htail : cs.takeWhile (fun x => !isAlnumC x) = [] := by
          cases cs with
          | nil => rfl
          | cons c2 rest =>
            by_cases h2 : isAlnumC c2 = true
            · exact List.takeWhile_cons_of_neg (by rw [h2]; simp)
            · have hc2 : c2 = ' ' := by
                rcases h c2 (List.mem_cons_of_mem c (List.mem_cons_self c2 rest)) with h3 | h3
                · exact absurd h3 h2
                · exact h3
              exfalso
              have hpre : ([' ', ' '] : List Char).isPrefixOf (c :: c2 :: rest) = true := by
                rw [hcsp, hc2]
                simp [List.isPrefixOf]
              rw [isPrefixOf_false_of_containsSeq_false hss] at hpre
              exact absurd hpre (by decide)
        have hrun : (c :: cs).takeWhile (fun x => !isAlnumC x) = [c] := by
          rw [@List.takeWhile_cons_of_pos Char (fun x => !isAlnumC x) c cs (by simp [hcf]),
            htail]
        rw [hrun]
        show ' ' :: remPunct fuel ((c :: cs).drop 1) = c :: cs
        rw [show (c :: cs).drop 1 = cs from rfl,
          ih cs (fun d hd => h d (List.mem_cons_of_mem c hd)) (containsSeq_tail_false hss), hcsp]

theorem space_char_eq {d : Char} (hd : lowerSpace d = true ∨ d = 'I')
    (hsp : isSpaceC d = true) : d = ' ' := by
  have h6 := hsp
  simp only [isSpaceC, Bool.or_eq_true, beq_iff_eq] at h6
  rcases h6 with ((((rfl | rfl) | rfl) | rfl) | rfl) | rfl
  · rfl
  all_goals
    rcases hd with hd | hd
    · exact absurd hd (by decide)
    · exact absurd hd (by decide)

theorem up2_nil (fuel : Nat) : up2 fuel [] = [] := by
  cases fuel <;> rfl

theorem up2_cons_nonspace (fuel : Nat) (x : Char) (xs : List Char)
    (h : isSpaceC x = false) : up2 (fuel + 1) (x :: xs) = x :: up2 fuel xs := by
  conv_lhs => unfold up2
  rw [if_neg (by rw [h]; simp)]

theorem takeWhile_space_eq_nil {cs : List Char}
    (hch : ∀ d ∈ cs, isSpaceC d = true → d = ' ')
    (hss : containsSeq [' ', ' '] (' ' :: cs) = false) :
    cs.takeWhile isSpaceC = [] := by
  cases cs with
  | nil => rfl
  | cons d rest =>
    by_cases hd : isSpaceC d = true
    · exfalso
      have hd2 : d = ' ' := hch d (List.mem_cons_self _ _) hd
      have hpre : ([' ', ' '] : List Char).isPrefixOf (' ' :: d :: rest) = true := by
        rw [hd2]
        simp [List.isPrefixOf]
      rw [isPrefixOf_false_of_containsSeq_false hss] at hpre
      exact absurd hpre (by decide)
    · exact List.takeWhile_cons_of_neg hd

theorem up2_step_hit (fuel : Nat) (rest3 : List Char)
    (hch : ∀ d ∈ rest3, isSpaceC d = true → d = ' ')
    (hss : containsSeq [' ', ' '] (' ' :: 'i' :: ' ' :: rest3) = false) :
    up2 (fuel + 1) (' ' :: 'i' :: ' ' :: rest3) = ' ' :: 'I' :: ' ' :: up2 fuel rest3 := by
  have hr3 : rest3.takeWhile isSpaceC = [] := by
    apply takeWhile_space_eq_nil hch
    have h1 := containsSeq_tail_false hss
    exact containsSeq_tail_false h1
  have hr1 : (' ' :: 'i' :: ' ' :: rest3).takeWhile isSpaceC = [' '] := by
    rw [List.takeWhile_cons_of_pos (by decide), List.takeWhile_cons_of_neg (by decide)]
  conv_lhs => unfold up2
  rw [if_pos (by decide)]
  simp only [List.takeWhile_cons_of_pos (show isSpaceC ' ' = true by decide),
    List.takeWhile_cons_of_neg (show ¬ isSpaceC 'i' = true by decide), hr3,
    List.length_cons, List.length_nil, List.drop_succ_cons, List.drop_zero,
    List.isEmpty_cons, List.cons_append, List.nil_append, Bool.false_eq_true, if_false]

theorem up2_step_miss1 (fuel : Nat) (cs : List Char)
    (hch : ∀ d ∈ cs, isSpaceC d = true → d = ' ')
    (hss : containsSeq [' ', ' '] (' ' :: cs) = false)
    (hnoti : cs.head? ≠ some 'i') :
    up2 (fuel + 1) (' ' :: cs) = ' ' :: up2 fuel cs := by
  have hr1 : (' ' :: cs).takeWhile isSpaceC = [' '] := by
    rw [List.takeWhile_cons_of_pos (by decide), takeWhile_space_eq_nil hch hss]
  conv_lhs => unfold up2
  rw [if_pos (by decide)]
  simp only [hr1, List.length_cons, List.length_nil, List.drop_succ_cons, List.drop_zero]
  split
  · exact absurd rfl hnoti
  · rfl

theorem up2_step_miss2 (fuel : Nat) (rest2 : List Char)
    (hr2 : rest2.takeWhile isSpaceC = []) :
    up2 (fuel + 1) (' ' :: 'i' :: rest2) = ' ' :: up2 fuel ('i' :: rest2) := by
  have hr1 : (' ' :: 'i' :: rest2).takeWhile isSpaceC = [' '] := by
    rw [List.takeWhile_cons_of_pos (by decide), List.takeWhile_cons_of_neg (by decide)]
  conv_lhs => unfold up2
  rw [if_pos (by decide)]
  simp only [hr1, List.length_cons, List.length_nil, List.drop_succ_cons, List.drop_zero,
    hr2, List.isEmpty_nil, if_true]

theorem up2_head?_eq (fuel : Nat) (l : List Char)
    (hch : ∀ d ∈ l, isSpaceC d = true → d = ' ')
    (hss : containsSeq [' ', ' '] l = false) :
    (up2 fuel l).head? = l.head? := by
  cases fuel with
  | zero => rfl
  | succ fuel =>
    cases l with
    | nil => rfl
    | cons c cs =>
      by_cases hsp : isSpaceC c = true
      · have hc : c = ' ' := hch c (List.mem_cons_self _ _) hsp
        subst hc
        cases cs with
        | nil =>
          rw [up2_step_miss1 fuel [] (fun d hd => absurd hd (List.not_mem_nil d)) hss
            (by simp)]
          rfl
        | cons d rest =>
          by_cases hdi : d = 'i'
          · subst hdi
            cases rest with
            | nil =>
              rw [up2_step_miss2 fuel [] rfl]
              rfl
            | cons e r3 =>
              by_cases hesp : isSpaceC e = true
              · have he : e = ' ' := hch e
                  (List.mem_cons_of_mem _ (List.mem_cons_of_mem _ (List.mem_cons_self _ _))) hesp
                subst he
                rw [up2_step_hit fuel r3 (fun x hx => hch x
                  (List.mem_cons_of_mem _ (List.mem_cons_of_mem _ (List.mem_cons_of_mem _ hx))))
                  hss]
                rfl
              · rw [up2_step_miss2 fuel (e :: r3) (List.takeWhile_cons_of_neg hesp)]
                rfl
          · rw [up2_step_miss1 fuel (d :: rest)
              (fun x hx => hch x (List.mem_cons_of_mem _ hx)) hss
              (by simp [hdi])]
            rfl
      · rw [up2_cons_nonspace fuel c cs (by simpa using hsp)]
        rfl

theorem up2_id_of_no_spi (fuel : Nat) (l : List Char)
    (hch : ∀ d ∈ l, isSpaceC d = true → d = ' ')
    (hss : containsSeq [' ', ' '] l = false)
    (hspi : containsSeq [' ', 'i', ' '] l = false) :
    up2 fuel l = l := by
  induction fuel generalizing l with
  | zero => rfl
  | succ fuel ih =>
    cases l with
    | nil => rfl
    | cons c cs =>
      have htailch : ∀ x ∈ cs, isSpaceC x = true → x = ' ' :=
        fun x hx => hch x (List.mem_cons_of_mem _ hx)
      have htail := ih cs htailch (containsSeq_tail_false hss) (containsSeq_tail_false hspi)
      by_cases hsp : isSpaceC c = true
      · have hc : c = ' ' := hch c (List.mem_cons_self _ _) hsp
        subst hc
        cases cs with
        | nil =>
          rw [up2_step_miss1 fuel [] (fun d hd => absurd hd (List.not_mem_nil d)) hss
            (by simp), up2_nil]
        | cons d rest =>
          by_cases hdi : d = 'i'
          · subst hdi
            cases rest with
            | nil =>
              rw [up2_step_miss2 fuel [] rfl, htail]
            | cons e r3 =>
              by_cases hesp : isSpaceC e = true
              · have he : e = ' ' := hch e
                  (List.mem_cons_of_mem _ (List.mem_cons_of_mem _ (List.mem_cons_self _ _))) hesp
                subst he
                exfalso
                have hpre : ([' ', 'i', ' '] : List Char).isPrefixOf
                    (' ' :: 'i' :: ' ' :: r3) = true := by
                  simp [List.isPrefixOf]
                rw [isPrefixOf_false_of_containsSeq_false hspi] at hpre
                exact absurd hpre (by decide)
              · rw [up2_step_miss2 fuel (e :: r3) (List.takeWhile_cons_of_neg hesp), htail]
          · rw [up2_step_miss1 fuel (d :: rest) htailch hss (by simp [hdi]), htail]
      · rw [up2_cons_nonspace fuel c cs (by simpa using hsp), htail]

theorem ne_space_of_not_spaceC {c : Char} (h : isSpaceC c = false) : (' ' == c) = false :=
  beq_false_of_ne (fun he => absurd h (by rw [← he]; decide))

theorem isPrefixOf_cons_ne {p c : Char} {ps w : List Char} (h : (p == c) = false) :
    (p :: ps).isPrefixOf (c :: w) = false := by
  show (p == c && ps.isPrefixOf w) = false
  rw [h, Bool.false_and]

theorem isPrefixOf_cons_same {p c : Char} {ps w : List Char} (h : (p == c) = true) :
    (p :: ps).isPrefixOf (c :: w) = ps.isPrefixOf w := by
  show (p == c && ps.isPrefixOf w) = _
  rw [h, Bool.true_and]

theorem containsSeq_cons_false {pat : List Char} {c : Char} {w : List Char}
    (h1 : pat.isPrefixOf (c :: w) = false) (h2 : containsSeq pat w = false) :
    containsSeq pat (c :: w) = false := by
  rw [containsSeq_cons, h1, h2]
  rfl

theorem containsSeq_singleton_false {p q : Char} {pat : List Char} (c : Char) :
    containsSeq (p :: q :: pat) [c] = false := by
  rw [containsSeq_cons]
  have h : (p :: q :: pat).isPrefixOf [c] = false := by
    by_cases hpc : (p == c) = true
    · rw [isPrefixOf_cons_same hpc]; rfl
    · exact isPrefixOf_cons_ne (by simpa using hpc)
  rw [h]
  rfl

theorem sp_ne_of_no_dspace {d : Char} {rest : List Char}
    (hss : containsSeq [' ', ' '] (' ' :: d :: rest) = false) : (' ' == d) = false := by
  by_cases hy : (' ' == d) = true
  · exfalso
    have hdd : d = ' ' := (beq_iff_eq.mp hy).symm
    subst hdd
    have hpre := isPrefixOf_false_of_containsSeq_false hss
    rw [isPrefixOf_cons_same (by decide), isPrefixOf_cons_same (by decide),
      show ([] : List Char).isPrefixOf rest = true by cases rest <;> rfl] at hpre
    exact absurd hpre (by decide)
  · simpa using hy

theorem lowerSpace_not_upper {c : Char} (h : lowerSpace c = true) : isUpperAlpha c = false := by
  simp only [lowerSpace, Bool.or_eq_true, beq_iff_eq] at h
  rcases h with h | h
  · by_contra hb
    have h2 : isUpperAlpha c = true := by simpa using hb
    simp only [isLowerAlpha, Bool.and_eq_true, decide_eq_true_eq] at h
    simp only [isUpperAlpha, Bool.and_eq_true, decide_eq_true_eq] at h2
    exact absurd (le_trans h.1 h2.2) (by decide)
  · subst h; rfl

theorem lowerSpaceI_not_digit {c : Char} (h : lowerSpace c = true ∨ c = 'I') :
    isDigitC c = false := by
  rcases h with h | h
  · simp only [lowerSpace, Bool.or_eq_true, beq_iff_eq] at h
    rcases h with h | h
    · by_contra hb
      have h2 : isDigitC c = true := by simpa using hb
      simp only [isLowerAlpha, Bool.and_eq_true, decide_eq_true_eq] at h
      simp only [isDigitC, Bool.and_eq_true, decide_eq_true_eq] at h2
      exact absurd (le_trans h.1 h2.2) (by decide)
    · subst h; rfl
  · subst h; rfl

theorem lowerSpaceI_not_dot {c : Char} (h : lowerSpace c = true ∨ c = 'I') :
    (c == '.') = false := by
  apply beq_false_of_ne
  intro he
  subst he
  rcases h with h | h
  · exact absurd h (by decide)
  · exact absurd h (by decide)

theorem lowerSpaceI_not_dash {c : Char} (h : lowerSpace c = true ∨ c = 'I') :
    (c == '-') = false := by
  apply beq_false_of_ne
  intro he
  subst he
  rcases h with h | h
  · exact absurd h (by decide)
  · exact absurd h (by decide)

theorem lowerSpaceI_not_apos {c : Char} (h : lowerSpace c = true ∨ c = 'I') :
    (apos == c) = false := by
  rcases h with h | h
  · exact apos_beq_false h
  · subst h; decide

theorem lowerSpaceI_alnum {c : Char} (h : lowerSpace c = true ∨ c = 'I') :
    isAlnumC c = true ∨ c = ' ' := by
  rcases h with h | h
  · simp only [lowerSpace, Bool.or_eq_true, beq_iff_eq] at h
    rcases h with h | h
    · exact Or.inl (by simp [isAlnumC, isAlphaC, h])
    · exact Or.inr h
  · subst h; exact Or.inl (by decide)

/-- `expand` also leaves apostrophe-free text containing the letter `I`
unchanged. -/
theorem expand_id_mixed (l : List Char) (hl : ∀ c ∈ l, lowerSpace c = true ∨ c = 'I') :
    expand l = l := by
  apply foldl_subScan_id
  intro r hr
  have happ : ∀ c ∈ l, ((fun c => apos == c) c) = false := fun c hc =>
    lowerSpaceI_not_apos (hl c hc)
  rcases List.mem_cons.mp hr with rfl | hr2
  · exact ⟨fun c => apos == c,
      List.mem_cons_of_mem _ (List.mem_map.mpr ⟨apos, by decide, rfl⟩), happ⟩
  · fin_cases hr2 <;>
      exact ⟨fun c => apos == c, List.mem_map.mpr ⟨apos, by decide, rfl⟩, happ⟩

theorem up1_single (c : Char) : up1 [c] = [c] := by
  unfold up1
  split
  · next h2 => simp at h2
  · rfl

theorem up1_i_space (cs : List Char) : up1 ('i' :: ' ' :: cs) = 'I' :: ' ' :: cs := rfl

theorem up1_cons_nospace (c c2 : Char) (cs : List Char) (h : isSpaceC c2 = false) :
    up1 (c :: c2 :: cs) = c :: c2 :: cs := by
  by_cases hc : c = 'i'
  · subst hc
    show (if isSpaceC c2 = true then 'I' :: c2 :: cs else 'i' :: c2 :: cs) = 'i' :: c2 :: cs
    rw [if_neg (by rw [h]; simp)]
  · unfold up1
    split
    · next h2 => exact absurd (List.cons.inj h2.symm).1.symm hc
    · rfl

theorem up1_cons_not_i (c c2 : Char) (cs : List Char) (h : c ≠ 'i') :
    up1 (c :: c2 :: cs) = c :: c2 :: cs := by
  unfold up1
  split
  · next h2 => exact absurd (List.cons.inj h2.symm).1.symm h
  · rfl

theorem lc2_single (c : Char) : lc2 [c] = [c] := rfl

theorem lc2_cons (c c2 : Char) (cs : List Char) :
    lc2 (c :: c2 :: cs) =
      if (isUpperAlpha c && isSpaceC c2) = true then c.toLower :: c2 :: cs
      else c :: c2 :: cs := rfl

theorem isPrefixOf_false_of_head_ne {p : Char} {ps w : List Char} {x : Char}
    (hw : w.head? = some x) (h : (p == x) = false) : (p :: ps).isPrefixOf w = false := by
  cases w with
  | nil => simp at hw
  | cons y ys =>
    have hyx : y = x := by simpa using hw
    subst hyx
    exact isPrefixOf_cons_ne h

/-- Invariants of the `\s+i\s+` uppercasing pass on single-spaced
lowercase text with no ` i i ` pattern: the output consists of
lowercase letters, spaces and `I`, is still single-spaced, contains no
` i ` pattern any more, and has no uppercase letter followed by a
lowercase one. -/
theorem up2_main (fuel : Nat) (l : List Char) (hfuel : l.length ≤ fuel)
    (hch : ∀ c ∈ l, lowerSpace c = true)
    (hss : containsSeq [' ', ' '] l = false)
    (hii : containsSeq [' ', 'i', ' ', 'i', ' '] l = false) :
    (∀ c ∈ up2 fuel l, lowerSpace c = true ∨ c = 'I') ∧
    containsSeq [' ', ' '] (up2 fuel l) = false ∧
    containsSeq [' ', 'i', ' '] (up2 fuel l) = false ∧
    hasUpperLower (up2 fuel l) = false := by
  induction fuel generalizing l with
  | zero =>
    have hl : l = [] := List.eq_nil_of_length_eq_zero (Nat.le_zero.mp hfuel)
    subst hl
    exact ⟨fun c hc => absurd hc (List.not_mem_nil c), by decide, by decide, rfl⟩
  | succ fuel ih =>
    cases l with
    | nil =>
      rw [up2_nil (fuel + 1)]
      exact ⟨fun c hc => absurd hc (List.not_mem_nil c), by decide, by decide, rfl⟩
    | cons c cs =>
      have hlen : (c :: cs).length ≤ fuel + 1 := hfuel
      have hchs : ∀ d ∈ cs, lowerSpace d = true := fun d hd2 => hch d (List.mem_cons_of_mem c hd2)
      by_cases hsp : isSpaceC c = true
      · have hceq : c = ' ' := space_char_eq (Or.inl (hch c (List.mem_cons_self c cs))) hsp
        subst hceq
        cases cs with
        | nil =>
          rw [up2_step_miss1 fuel [] (fun d hd2 => absurd hd2 (List.not_mem_nil d)) hss (by simp),
            up2_nil]
          refine ⟨?_, by decide, by decide, rfl⟩
          intro d hd2
          rw [List.mem_singleton.mp hd2]
          exact Or.inl (by decide)
        | cons d rest =>
          have hdne : (' ' == d) = false := sp_ne_of_no_dspace hss
          by_cases hdi : d = 'i'
          · subst hdi
            cases rest with
            | nil =>
              rw [up2_step_miss2 fuel [] rfl,
                up2_id_of_no_spi fuel ['i'] (by decide) (by decide) (by decide)]
              refine ⟨?_, by decide, by decide, rfl⟩
              intro x hx
              rcases List.mem_cons.mp hx with rfl | hx2
              · exact Or.inl (by decide)
              · rw [List.mem_singleton.mp hx2]
                exact Or.inl (by decide)
            | cons e r3 =>
              by_cases hesp : isSpaceC e = true
              · have he : e = ' ' := space_char_eq
                  (Or.inl (hch e (List.mem_cons_of_mem _ (List.mem_cons_of_mem _
                    (List.mem_cons_self e r3))))) hesp
                subst he
                have hch3 : ∀ x ∈ r3, lowerSpace x = true := fun x hx =>
                  hch x (List.mem_cons_of_mem _ (List.mem_cons_of_mem _
                    (List.mem_cons_of_mem _ hx)))
                have hch3sp : ∀ x ∈ r3, isSpaceC x = true → x = ' ' :=
                  fun x hx hxs => space_char_eq (Or.inl (hch3 x hx)) hxs
                have hss3 : containsSeq [' ', ' '] r3 = false :=
                  containsSeq_tail_false (containsSeq_tail_false (containsSeq_tail_false hss))
                have hii3 : containsSeq [' ', 'i', ' ', 'i', ' '] r3 = false :=
                  containsSeq_tail_false (containsSeq_tail_false (containsSeq_tail_false hii))
                have hfr : r3.length ≤ fuel := by
                  simp only [List.length_cons] at hlen
                  omega
                obtain ⟨ha, hb, hc2, hd2⟩ := ih r3 hfr hch3 hss3 hii3
                have hw_head : (up2 fuel r3).head? = r3.head? := up2_head?_eq fuel r3 hch3sp hss3
                have hss1 : containsSeq [' ', ' '] (' ' :: r3) = false :=
                  containsSeq_tail_false (containsSeq_tail_false hss)
                rw [up2_step_hit fuel r3 hch3sp hss]
                refine ⟨?_, ?_, ?_, ?_⟩
                · intro x hx
                  rcases List.mem_cons.mp hx with rfl | hx
                  · exact Or.inl (by decide)
                  rcases List.mem_cons.mp hx with rfl | hx
                  · exact Or.inr rfl
                  rcases List.mem_cons.mp hx with rfl | hx
                  · exact Or.inl (by decide)
                  · exact ha x hx
                · refine containsSeq_cons_false (by
                      rw [isPrefixOf_cons_same (by decide)]
                      exact isPrefixOf_cons_ne (by decide))
                    (containsSeq_cons_false (isPrefixOf_cons_ne (by decide))
                    (containsSeq_cons_false ?_ hb))
                  rw [isPrefixOf_cons_same (by decide)]
                  cases r3 with
                  | nil =>
                    rw [up2_nil]
                    rfl
                  | cons x xs =>
                    have hxne : (' ' == x) = false := sp_ne_of_no_dspace hss1
                    exact isPrefixOf_false_of_head_ne (hw_head.trans rfl) hxne
                · refine containsSeq_cons_false (by
                      rw [isPrefixOf_cons_same (by decide)]
                      exact isPrefixOf_cons_ne (by decide))
                    (containsSeq_cons_false (isPrefixOf_cons_ne (by decide))
                    (containsSeq_cons_false ?_ hc2))
                  rw [isPrefixOf_cons_same (by decide)]
                  cases r3 with
                  | nil =>
                    rw [up2_nil]
                    rfl
                  | cons x xs =>
                    by_cases hxi : x = 'i'
                    · subst hxi
                      obtain ⟨f2, rfl⟩ : ∃ f2, fuel = f2 + 1 := by
                        cases fuel with
                        | zero => simp at hfr
                        | succ f2 => exact ⟨f2, rfl⟩
                      rw [up2_cons_nonspace f2 'i' xs (by decide),
                        isPrefixOf_cons_same (by decide)]
                      have hxs_head : (up2 f2 xs).head? = xs.head? := up2_head?_eq f2 xs
                        (fun z hz hzs => space_char_eq
                          (Or.inl (hch3 z (List.mem_cons_of_mem _ hz))) hzs)
                        (containsSeq_tail_false hss3)
                      cases xs with
                      | nil =>
                        rw [up2_nil]
                        rfl
                      | cons y ys =>
                        have hyne : (' ' == y) = false := by
                          by_cases hy : (' ' == y) = true
                          · exfalso
                            have hyy : y = ' ' := (beq_iff_eq.mp hy).symm
                            subst hyy
                            have hpre := isPrefixOf_false_of_containsSeq_false hii
                            rw [isPrefixOf_cons_same (by decide),
                              isPrefixOf_cons_same (by decide),
                              isPrefixOf_cons_same (by decide),
                              isPrefixOf_cons_same (by decide),
                              isPrefixOf_cons_same (by decide),
                              show ([] : List Char).isPrefixOf ys = true by
                                cases ys <;> rfl] at hpre
                            exact absurd hpre (by decide)
                          · simpa using hy
                        exact isPrefixOf_false_of_head_ne (hxs_head.trans rfl) hyne
                    · exact isPrefixOf_false_of_head_ne (hw_head.trans rfl)
                        (beq_false_of_ne (fun h2 => hxi h2.symm))
                · exact hasUpperLower_cons_false (by decide)
                    (hasUpperLower_cons_upper (by decide)
                    (hasUpperLower_cons_false (by decide) hd2))
              · have hesp' : isSpaceC e = false := by simpa using hesp
                rw [up2_step_miss2 fuel (e :: r3) (List.takeWhile_cons_of_neg hesp)]
                have hlen2 : ('i' :: e :: r3).length ≤ fuel := by
                  simp only [List.length_cons] at hlen ⊢
                  omega
                obtain ⟨ha, hb, hc2, hd2⟩ := ih ('i' :: e :: r3) hlen2 hchs
                  (containsSeq_tail_false hss) (containsSeq_tail_false hii)
                obtain ⟨f2, rfl⟩ : ∃ f2, fuel = f2 + 1 := by
                  cases fuel with
                  | zero => simp at hlen2
                  | succ f2 => exact ⟨f2, rfl⟩
                have hw : up2 (f2 + 1) ('i' :: e :: r3) = 'i' :: up2 f2 (e :: r3) :=
                  up2_cons_nonspace f2 'i' (e :: r3) (by decide)
                have hu_head : (up2 f2 (e :: r3)).head? = some e := by
                  rw [up2_head?_eq f2 (e :: r3)
                    (fun z hz hzs => space_char_eq
                      (Or.inl (hchs z (List.mem_cons_of_mem _ hz))) hzs)
                    (containsSeq_tail_false (containsSeq_tail_false hss))]
                  rfl
                refine ⟨?_, ?_, ?_, ?_⟩
                · intro x hx
                  rcases List.mem_cons.mp hx with rfl | hx
                  · exact Or.inl (by decide)
                  · exact ha x hx
                · refine containsSeq_cons_false ?_ hb
                  rw [isPrefixOf_cons_same (by decide), hw]
                  exact isPrefixOf_cons_ne (by decide)
                · refine containsSeq_cons_false ?_ hc2
                  rw [isPrefixOf_cons_same (by decide), hw,
                    isPrefixOf_cons_same (by decide)]
                  exact isPrefixOf_false_of_head_ne hu_head (ne_space_of_not_spaceC hesp')
                · exact hasUpperLower_cons_false (by decide) hd2
          · rw [up2_step_miss1 fuel (d :: rest)
              (fun x hx hxs => space_char_eq (Or.inl (hchs x hx)) hxs) hss (by simp [hdi])]
            have hlen2 : (d :: rest).length ≤ fuel := by
              simp only [List.length_cons] at hlen ⊢
              omega
            obtain ⟨ha, hb, hc2, hd2⟩ := ih (d :: rest) hlen2 hchs
              (containsSeq_tail_false hss) (containsSeq_tail_false hii)
            have hw_head : (up2 fuel (d :: rest)).head? = some d := by
              rw [up2_head?_eq fuel (d :: rest)
                (fun x hx hxs => space_char_eq (Or.inl (hchs x hx)) hxs)
                (containsSeq_tail_false hss)]
              rfl
            refine ⟨?_, ?_, ?_, ?_⟩
            · intro x hx
              rcases List.mem_cons.mp hx with rfl | hx
              · exact Or.inl (by decide)
              · exact ha x hx
            · refine containsSeq_cons_false ?_ hb
              rw [isPrefixOf_cons_same (by decide)]
              exact isPrefixOf_false_of_head_ne hw_head hdne
            · refine containsSeq_cons_false ?_ hc2
              rw [isPrefixOf_cons_same (by decide)]
              exact isPrefixOf_false_of_head_ne hw_head
                (beq_false_of_ne (fun h2 => hdi h2.symm))
            · exact hasUpperLower_cons_false (by decide) hd2
      · have hcl : lowerSpace c = true := hch c (List.mem_cons_self c cs)
        have hfc : cs.length ≤ fuel := by
          simp only [List.length_cons] at hlen
          omega
        obtain ⟨ha, hb, hc2, hd2⟩ := ih cs hfc hchs
          (containsSeq_tail_false hss) (containsSeq_tail_false hii)
        rw [up2_cons_nonspace fuel c cs (by simpa using hsp)]
        have hcne : (' ' == c) = false := ne_space_of_not_spaceC (by simpa using hsp)
        refine ⟨?_, ?_, ?_, ?_⟩
        · intro x hx
          rcases List.mem_cons.mp hx with rfl | hx
          · exact Or.inl hcl
          · exact ha x hx
        · exact containsSeq_cons_false (isPrefixOf_cons_ne hcne) hb
        · exact containsSeq_cons_false (isPrefixOf_cons_ne hcne) hc2
        · exact hasUpperLower_cons_false (lowerSpace_not_upper hcl) hd2

/-- Properties of `uppercase_i` on single-spaced lowercase text with no
` i i ` pattern: output alphabet, single spacing, absence of ` i `,
no uppercase-before-lowercase pair, and the `lowercase`/`uppercase_i`
head roundtrip. -/
theorem uppercase_i_props (l : List Char)
    (hch : ∀ c ∈ l, lowerSpace c = true)
    (hss : containsSeq [' ', ' '] l = false)
    (hii : containsSeq [' ', 'i', ' ', 'i', ' '] l = false) :
    (∀ c ∈ uppercase_i l, lowerSpace c = true ∨ c = 'I') ∧
    containsSeq [' ', ' '] (uppercase_i l) = false ∧
    containsSeq [' ', 'i', ' '] (uppercase_i l) = false ∧
    hasUpperLower (uppercase_i l) = false ∧
    up1 (lc2 (uppercase_i l)) = uppercase_i l := by
  cases l with
  | nil =>
    have h0 : uppercase_i ([] : List Char) = [] := rfl
    rw [h0]
    exact ⟨fun c hc => absurd hc (List.not_mem_nil c), by decide, by decide, rfl, rfl⟩
  | cons c cs =>
    cases cs with
    | nil =>
      have h2 : uppercase_i [c] = [c] := by
        show up2 (up1 [c]).length (up1 [c]) = [c]
        rw [up1_single]
        exact up2_id_of_no_spi [c].length [c]
          (fun d hd hds => space_char_eq (Or.inl (hch d hd)) hds)
          (containsSeq_singleton_false c) (containsSeq_singleton_false c)
      rw [h2]
      refine ⟨?_, containsSeq_singleton_false c, containsSeq_singleton_false c, rfl, ?_⟩
      · intro x hx
        rw [List.mem_singleton.mp hx]
        exact Or.inl (hch c (List.mem_cons_self c []))
      · rw [lc2_single, up1_single]
    | cons c2 cs2 =>
      by_cases hmain : c = 'i' ∧ isSpaceC c2 = true
      · obtain ⟨rfl, hc2sp⟩ := hmain
        have hc2 : c2 = ' ' := space_char_eq
          (Or.inl (hch c2 (List.mem_cons_of_mem _ (List.mem_cons_self c2 cs2)))) hc2sp
        subst hc2
        have h2 : uppercase_i ('i' :: ' ' :: cs2) =
            'I' :: up2 (cs2.length + 1) (' ' :: cs2) := by
          show up2 (up1 ('i' :: ' ' :: cs2)).length (up1 ('i' :: ' ' :: cs2)) = _
          rw [up1_i_space]
          exact up2_cons_nonspace (cs2.length + 1) 'I' (' ' :: cs2) (by decide)
        have hch' : ∀ x ∈ ' ' :: cs2, lowerSpace x = true := by
          intro x hx
          rcases List.mem_cons.mp hx with rfl | hx
          · decide
          · exact hch x (List.mem_cons_of_mem _ (List.mem_cons_of_mem _ hx))
        have hss' : containsSeq [' ', ' '] (' ' :: cs2) = false := containsSeq_tail_false hss
        have hii' : containsSeq [' ', 'i', ' ', 'i', ' '] (' ' :: cs2) = false :=
          containsSeq_tail_false hii
        obtain ⟨ha, hb, hcc, hd⟩ := up2_main (cs2.length + 1) (' ' :: cs2) (by simp)
          hch' hss' hii'
        have hwhead : (up2 (cs2.length + 1) (' ' :: cs2)).head? = some ' ' := by
          rw [up2_head?_eq _ _ (fun z hz hzs => space_char_eq (Or.inl (hch' z hz)) hzs) hss']
          rfl
        obtain ⟨w2, hw2⟩ : ∃ w2, up2 (cs2.length + 1) (' ' :: cs2) = ' ' :: w2 := by
          cases hu : up2 (cs2.length + 1) (' ' :: cs2) with
          | nil =>
            rw [hu] at hwhead
            simp at hwhead
          | cons y ys =>
            rw [hu] at hwhead
            have hy : y = ' ' := by simpa using hwhead
            exact ⟨ys, by rw [← hy]⟩
        rw [hw2] at ha hb hcc hd
        rw [h2, hw2]
        refine ⟨?_, ?_, ?_, ?_, ?_⟩
        · intro x hx
          rcases List.mem_cons.mp hx with rfl | hx
          · exact Or.inr rfl
          · exact ha x hx
        · exact containsSeq_cons_false (isPrefixOf_cons_ne (by decide)) hb
        · exact containsSeq_cons_false (isPrefixOf_cons_ne (by decide)) hcc
        · exact hasUpperLower_cons_upper (by decide) hd
        · rw [lc2_cons, if_pos (by decide),
            show ('I' : Char).toLower = 'i' from by decide]
          exact up1_i_space w2
      · have h1 : up1 (c :: c2 :: cs2) = c :: c2 :: cs2 := by
          by_cases hci : c = 'i'
          · subst hci
            have hc2f : isSpaceC c2 = false := by
              by_cases h3 : isSpaceC c2 = true
              · exact absurd ⟨rfl, h3⟩ hmain
              · simpa using h3
            exact up1_cons_nospace 'i' c2 cs2 hc2f
          · exact up1_cons_not_i c c2 cs2 hci
        have h2 : uppercase_i (c :: c2 :: cs2) =
            up2 (c :: c2 :: cs2).length (c :: c2 :: cs2) := by
          show up2 (up1 (c :: c2 :: cs2)).length (up1 (c :: c2 :: cs2)) = _
          rw [h1]
        obtain ⟨ha, hb, hcc, hd⟩ := up2_main (c :: c2 :: cs2).length (c :: c2 :: cs2)
          le_rfl hch hss hii
        have hhead : (up2 (c :: c2 :: cs2).length (c :: c2 :: cs2)).head? = some c := by
          rw [up2_head?_eq _ _ (fun z hz hzs => space_char_eq (Or.inl (hch z hz)) hzs) hss]
          rfl
        rw [h2]
        refine ⟨ha, hb, hcc, hd, ?_⟩
        obtain ⟨t, hm⟩ : ∃ t, up2 (c :: c2 :: cs2).length (c :: c2 :: cs2) = c :: t := by
          cases hu : up2 (c :: c2 :: cs2).length (c :: c2 :: cs2) with
          | nil =>
            rw [hu] at hhead
            simp at hhead
          | cons y ys =>
            rw [hu] at hhead
            have hy : y = c := by simpa using hhead
            exact ⟨ys, by rw [← hy]⟩
        rw [hm]
        have hcu : isUpperAlpha c = false :=
          lowerSpace_not_upper (hch c (List.mem_cons_self c (c2 :: cs2)))
        cases t with
        | nil => rw [lc2_single, up1_single]
        | cons y t2 =>
          rw [lc2_cons, if_neg (by rw [hcu]; simp)]
          by_cases hci : c = 'i'
          · subst hci
            have hc2f : isSpaceC c2 = false := by
              by_cases h3 : isSpaceC c2 = true
              · exact absurd ⟨rfl, h3⟩ hmain
              · simpa using h3
            have hpeel : up2 ('i' :: c2 :: cs2).length ('i' :: c2 :: cs2) =
                'i' :: up2 (c2 :: cs2).length (c2 :: cs2) :=
              up2_cons_nonspace (c2 :: cs2).length 'i' (c2 :: cs2) (by decide)
            have hyhead : (up2 (c2 :: cs2).length (c2 :: cs2)).head? = some c2 := by
              rw [up2_head?_eq _ _ (fun z hz hzs => space_char_eq
                (Or.inl (hch z (List.mem_cons_of_mem _ hz))) hzs)
                (containsSeq_tail_false hss)]
              rfl
            have ht : up2 (c2 :: cs2).length (c2 :: cs2) = y :: t2 :=
              (List.cons.inj (hpeel.symm.trans hm)).2
            rw [ht] at hyhead
            have hy : y = c2 := by simpa using hyhead
            rw [hy]
            exact up1_cons_nospace 'i' c2 t2 hc2f
          · exact up1_cons_not_i c y t2 hci

/-- The whole pipeline fixes any list with the invariants established
by `uppercase_i_props`. -/
theorem pipeline_fix (m : List Char)
    (ha : ∀ c ∈ m, lowerSpace c = true ∨ c = 'I')
    (hb : containsSeq [' ', ' '] m = false)
    (hc : containsSeq [' ', 'i', ' '] m = false)
    (hd : hasUpperLower m = false)
    (he : up1 (lc2 m) = m) :
    remove_punctuation (uppercase_i (lowercase (remove_numbers
      (standardize_abbreviations (expand m))))) = m := by
  rw [expand_id_mixed m ha,
    standardize_abbreviations_id m (fun c hcm => lowerSpaceI_not_dot (ha c hcm))
      (fun c hcm => lowerSpaceI_not_dash (ha c hcm))
      (fun c hcm => lowerSpaceI_not_digit (ha c hcm)),
    remove_numbers_id m (fun c hcm => lowerSpaceI_not_digit (ha c hcm))]
  have hl : lowercase m = lc2 m := by
    unfold lowercase
    rw [lc1_id m.length m hd]
  rw [hl]
  have hu : uppercase_i (lc2 m) = m := by
    show up2 (up1 (lc2 m)).length (up1 (lc2 m)) = m
    rw [he]
    exact up2_id_of_no_spi m.length m
      (fun d hdm hds => space_char_eq (ha d hdm) hds) hb hc
  rw [hu]
  exact remPunct_id m.length m (fun c hcm => lowerSpaceI_alnum (ha c hcm)) hb

/-- C7: on already-normalized text — lowercase letters and single
spaces, no digits and no punctuation — the pipeline of `tokenize` is
idempotent provided the text contains no ` i i ` pattern: the
`re.sub(r'\s+i\s+', ...)` pass of `uppercase_i` consumes the
whitespace after a matched `i`, so scanning resumes after it and a
second lone `i` is uppercased only on the next application (see
`normalize_not_idempotent_counterexample`); with that pattern excluded
`normalize(normalize(t)) == normalize(t)`. -/
theorem normalize_idempotent (s : String)
    (hch : ∀ c ∈ s.data, lowerSpace c = true)
    (hss : containsSeq [' ', ' '] s.data = false)
    (hii : containsSeq [' ', 'i', ' ', 'i', ' '] s.data = false) :
    normalizeText (normalizeText s) = normalizeText s := by
  obtain ⟨ha, hb, hc, hd, he⟩ := uppercase_i_props s.data hch hss hii
  have h1 : normalizeText s = String.mk (uppercase_i s.data) := by
    unfold normalizeText
    rw [expand_id s.data hch,
      standardize_abbreviations_id s.data
        (fun c hcm => lowerSpaceI_not_dot (Or.inl (hch c hcm)))
        (fun c hcm => lowerSpaceI_not_dash (Or.inl (hch c hcm)))
        (fun c hcm => lowerSpaceI_not_digit (Or.inl (hch c hcm))),
      remove_numbers_id s.data (fun c hcm => lowerSpaceI_not_digit (Or.inl (hch c hcm))),
      lowercase_id s.data (fun c hcm => lowerSpace_not_upper (hch c hcm)),
      show remove_punctuation (uppercase_i s.data) = uppercase_i s.data from
        remPunct_id _ _ (fun c hcm => lowerSpaceI_alnum (ha c hcm)) hb]
  have h2 : normalizeText (String.mk (uppercase_i s.data)) =
      String.mk (uppercase_i s.data) := by
    unfold normalizeText
    exact congrArg String.mk (pipeline_fix (uppercase_i s.data) ha hb hc hd he)
  rw [h1, h2]

/-- Witness: `"a i b"` satisfies the hypotheses of
`normalize_idempotent` and the pipeline is idempotent on it. -/
theorem normalize_idempotent_witness :
    (∀ c ∈ ("a i b" : String).data, lowerSpace c = true) ∧
    containsSeq [' ', ' '] ("a i b" : String).data = false ∧
    containsSeq [' ', 'i', ' ', 'i', ' '] ("a i b" : String).data = false ∧
    normalizeText (normalizeText "a i b") = normalizeText "a i b" :=
  ⟨by decide, by decide, by decide,
    normalize_idempotent "a i b" (by decide) (by decide) (by decide)⟩
